import Mathlib

/-!
A shallow embedding of the binary buddy-system memory allocator from
`src/buddy_system.py` (`class BuddySystemAllocator`), together with proofs of
the specified properties: conservation/tiling of the address space, alignment,
coalescing behaviour, round-trips, error atomicity and the memory-map view.

Modelling conventions:
* Python `set` objects (the per-level free lists) are modelled as `Finset ℕ`
  (extensional, unordered — exactly the observable behaviour of a `set` of
  addresses).  `set.pop()` removes an arbitrary element; the model removes the
  least element, one deterministic refinement of the source's behaviour (the
  spec's §9 "open question" explicitly allows any deterministic pop policy).
* The Python `dict` `allocated_blocks` (address → size, keys unique) is
  modelled as an association list kept sorted by key.  A `dict` is observed
  only through lookup, deletion and `sorted(items())`, so the key-sorted list
  is a faithful extensional model; `dict[k] = v` is `insertKey`,
  `dict.pop(k)` is `eraseKey`, `k in dict` is `lookupKey ≠ none`.
* The list `free_blocks` (indexed `0 .. levels-1`) is modelled as a total
  function `ℕ → Finset ℕ`; every read and write in the source uses an index
  `< levels` (`[-1]` is `levels - 1`).
* Python `int` arithmetic on sizes is exact; `math.log2`/`math.ceil` are
  modelled by their exact integer counterparts `Nat.log 2` / `Nat.clog 2`
  (the float round-off of `math.log2` is unobservable at any realistic
  memory size, and exact on the powers of two the allocator itself produces).
* Mutation is modelled by state passing: `allocate` returns
  `Option address × Allocator`, `deallocate` returns `Bool × Allocator`,
  mirroring the return values `Optional[int]` and `bool` of the source.
-/

namespace BuddySystem

/-- State of `BuddySystemAllocator`: the fields `total_size`, `min_size`,
`levels`, `free_blocks` (one set of start addresses per level) and
`allocated_blocks` (address → size mapping, modelled key-sorted). -/
structure Allocator where
  total_size : Nat
  min_size : Nat
  levels : Nat
  free_blocks : Nat → Finset Nat
  allocated_blocks : List (Nat × Nat)

/-- Dict assignment `d[k] = v` on a key-sorted association list:
inserts at the sorted position, replacing any existing binding of `k`. -/
def insertKey (k v : Nat) : List (Nat × Nat) → List (Nat × Nat)
  | [] => [(k, v)]
  | p :: rest =>
    if k < p.1 then (k, v) :: p :: rest
    else if k = p.1 then (k, v) :: rest
    else p :: insertKey k v rest

/-- Dict lookup `d[k]` / `k in d`. -/
def lookupKey (k : Nat) : List (Nat × Nat) → Option Nat
  | [] => none
  | p :: rest => if p.1 = k then some p.2 else lookupKey k rest

/-- Dict deletion `d.pop(k)` (the key occurs at most once). -/
def eraseKey (k : Nat) : List (Nat × Nat) → List (Nat × Nat)
  | [] => []
  | p :: rest => if p.1 = k then rest else p :: eraseKey k rest

/-- Floor base-2 logarithm, `int(math.log2 n)` for `n ≥ 1`, written with
explicit fuel so that it is structurally recursive (the kernel can evaluate
it); `log2F fuel n = Nat.log 2 n` whenever `n ≤ fuel`, see `log2F_eq_log`. -/
def log2F : Nat → Nat → Nat
  | _, 0 => 0
  | _, 1 => 0
  | 0, _ => 0
  | fuel + 1, n => log2F fuel (n / 2) + 1

/-- Ceiling base-2 logarithm, `math.ceil(math.log2 n)` for `n ≥ 1`, with
explicit fuel (structurally recursive); `clog2F fuel n = Nat.clog 2 n`
whenever `n ≤ fuel`, see `clog2F_eq_clog`. -/
def clog2F : Nat → Nat → Nat
  | _, 0 => 0
  | _, 1 => 0
  | 0, _ => 0
  | fuel + 1, n => clog2F fuel ((n + 1) / 2) + 1

/-- Models `BuddySystemAllocator.__init__(total_memory_mb, min_block_mb)`.

The source performs no validation:
`self.levels = int(math.log2(total_memory_mb // min_block_mb)) + 1` raises
(`ZeroDivisionError` for a zero divisor, `math domain error` when the floor
quotient is `≤ 0`), which we model as `none`; otherwise construction succeeds
with `free_blocks[-1] = {0}` and an empty allocated map.  The exotic corner
`min_block_mb < 0 ∧ total_memory_mb.fdiv min_block_mb ≥ 1` (both arguments
negative), where Python would build a nonsensical allocator with negative
sizes, is outside the modelled domain and also mapped to `none`; no claim
touches it.  Python `//` is floor division, `Int.fdiv`. -/
def mkAllocator (total_memory_mb min_block_mb : Int) : Option Allocator :=
  if 1 ≤ min_block_mb ∧ 1 ≤ total_memory_mb.fdiv min_block_mb then
    some { total_size := total_memory_mb.toNat
           min_size := min_block_mb.toNat
           levels :=
             log2F (total_memory_mb.toNat / min_block_mb.toNat)
               (total_memory_mb.toNat / min_block_mb.toNat) + 1
           free_blocks := fun l =>
             if l = log2F (total_memory_mb.toNat / min_block_mb.toNat)
                     (total_memory_mb.toNat / min_block_mb.toNat)
             then {0} else ∅
           allocated_blocks := [] }
  else none

/-- The allocator produced by a valid configuration `total = S·2^n`,
`min = S ≥ 1`: `n + 1` levels and a single free block at address `0` on the
top level. -/
def initAllocator (S n : Nat) : Allocator :=
  { total_size := S * 2 ^ n
    min_size := S
    levels := n + 1
    free_blocks := fun l => if l = n then {0} else ∅
    allocated_blocks := [] }

/-- Models `_get_level(size_mb)`: clamp the request up to `min_size`, then
`max(0, ceil(log2(size_mb / min_size)))`.  In exact arithmetic
`ceil(log2(s/m))` for `s ≥ m ≥ 1` is the least `k` with `m·2^k ≥ s`, i.e.
`Nat.clog 2 ⌈s/m⌉` with `⌈s/m⌉ = (s + m - 1) / m`, and the `max 0` is
automatic in `ℕ`. -/
def getLevel (a : Allocator) (size_mb : Int) : Nat :=
  let s : Nat := if size_mb < (a.min_size : Int) then a.min_size else size_mb.toNat
  clog2F ((s + a.min_size - 1) / a.min_size) ((s + a.min_size - 1) / a.min_size)

/-- Models `set.pop()` on a free set: `none` on an empty set; on a non-empty
set Python removes an arbitrary element, the model removes the least. -/
def popMin (s : Finset Nat) : Option Nat :=
  if h : s.Nonempty then some (s.min' h) else none

/-- Models the scan `for lvl in range(level, self.levels): if self.free_blocks[lvl]:`
— the first level `≥ lvl` (within `fuel` steps, called with
`fuel = levels - level`) whose free set is non-empty. -/
def scanLevel (free : Nat → Finset Nat) : Nat → Nat → Option Nat
  | _, 0 => none
  | lvl, fuel + 1 =>
    if (free lvl).Nonempty then some lvl else scanLevel free (lvl + 1) fuel

/-- Models the split loop of `allocate`:
`while lvl > level: lvl -= 1; self.free_blocks[lvl].add(addr + (self.min_size << lvl))`.
`S <<< lvl` is written `S * 2 ^ lvl`. -/
def splitDown (S addr level : Nat) : Nat → (Nat → Finset Nat) → (Nat → Finset Nat)
  | 0, free => free
  | lvl + 1, free =>
    if level < lvl + 1 then
      splitDown S addr level lvl
        (Function.update free lvl (insert (addr + S * 2 ^ lvl) (free lvl)))
    else free

/-- Models `allocate(size_mb)`: compute the target level, scan upward for the
first non-empty free set, pop an address, split back down to the target level,
record `addr ↦ min_size << level`, and return the address; `None` (with the
state untouched) when the scan finds nothing. -/
def allocate (a : Allocator) (size_mb : Int) : Option Nat × Allocator :=
  let level := getLevel a size_mb
  match scanLevel a.free_blocks level (a.levels - level) with
  | none => (none, a)
  | some lvl =>
    match popMin (a.free_blocks lvl) with
    | none => (none, a)
    | some addr =>
      (some addr,
        { a with
          free_blocks :=
            splitDown a.min_size addr level lvl
              (Function.update a.free_blocks lvl ((a.free_blocks lvl).erase addr))
          allocated_blocks := insertKey addr (a.min_size * 2 ^ level) a.allocated_blocks })

/-- Models the coalescing loop of `deallocate`:
`while current_level < self.levels - 1:` compute
`buddy_addr = current_addr ^ (self.min_size << current_level)`; if the buddy is
free at this level remove it, take the minimum address, move one level up,
else stop.  `fuel` bounds the iteration count; the loop is always called with
`fuel = levels`, which exceeds the at most `levels - 1` possible steps. -/
def coalesce (S L : Nat) : Nat → Nat → Nat → (Nat → Finset Nat) → Nat × Nat × (Nat → Finset Nat)
  | 0, cur, clvl, free => (cur, clvl, free)
  | fuel + 1, cur, clvl, free =>
    if clvl < L - 1 then
      if (cur ^^^ (S * 2 ^ clvl)) ∈ free clvl then
        coalesce S L fuel (min cur (cur ^^^ (S * 2 ^ clvl))) (clvl + 1)
          (Function.update free clvl ((free clvl).erase (cur ^^^ (S * 2 ^ clvl))))
      else (cur, clvl, free)
    else (cur, clvl, free)

/-- Models `deallocate(addr)`: `False` (state untouched) when `addr` is not a
key of `allocated_blocks`; otherwise remove the entry, recompute its level
from the recorded size, run the coalescing loop and insert the resulting
block into its final level's free set. -/
def deallocate (a : Allocator) (addr : Nat) : Bool × Allocator :=
  match lookupKey addr a.allocated_blocks with
  | none => (false, a)
  | some size =>
    match coalesce a.min_size a.levels a.levels addr (getLevel a (size : Int)) a.free_blocks with
    | (cur, clvl, free1) =>
      (true,
        { a with
          allocated_blocks := eraseKey addr a.allocated_blocks
          free_blocks := Function.update free1 clvl (insert cur (free1 clvl)) })

/-- The state tag of a `memory_map` line. -/
inductive BlockState
  | Allocated
  | Free
deriving DecidableEq

/-- Insert a number into an ascending list, keeping it ascending. -/
def insertAsc (a : Nat) : List Nat → List Nat
  | [] => [a]
  | b :: l => if a ≤ b then a :: b :: l else b :: insertAsc a l

instance insertAsc_leftComm : LeftCommutative insertAsc := by
  constructor
  intro a b l
  induction l with
  | nil =>
    by_cases hab : a ≤ b <;> by_cases hba : b ≤ a
    · have hh : a = b := Nat.le_antisymm hab hba
      subst hh; rfl
    · simp [insertAsc, hab, hba]
    · simp [insertAsc, hab, hba]
    · omega
  | cons c l ih =>
    by_cases hac : a ≤ c <;> by_cases hbc : b ≤ c
    · by_cases hab : a ≤ b <;> by_cases hba : b ≤ a
      · have hh : a = b := Nat.le_antisymm hab hba
        subst hh; rfl
      · simp [insertAsc, hac, hbc, hab, hba]
      · simp [insertAsc, hac, hbc, hab, hba]
      · omega
    · have hba : ¬ b ≤ a := by omega
      simp [insertAsc, hac, hbc, hba]
    · have hab : ¬ a ≤ b := by omega
      simp [insertAsc, hac, hbc, hab]
    · simp [insertAsc, hac, hbc, ih]

/-- The elements of a finite set of numbers, listed in ascending order
(a kernel-computable model of Python's `sorted(...)` on a set). -/
def sortAsc (s : Finset Nat) : List Nat :=
  Multiset.foldr insertAsc [] s.1

/-- Models `memory_map()`: the sequence of lines of the produced string, each
line carrying (state, start address, size).  The source first prints the
allocated blocks in ascending address order (`sorted(allocated_blocks.items())`;
the model's list is already key-sorted), then, level by level from `0` to
`levels - 1`, the free blocks of that level in ascending order
(`sorted(self.free_blocks[lvl])`).  The method only reads the state. -/
def memory_map (a : Allocator) : List (BlockState × Nat × Nat) :=
  a.allocated_blocks.map (fun p => (BlockState.Allocated, p.1, p.2))
    ++ ((List.range a.levels).map (fun lvl =>
          (sortAsc (a.free_blocks lvl)).map
            (fun ad => (BlockState.Free, ad, a.min_size * 2 ^ lvl)))).flatten

/-- A public call on the allocator. -/
inductive Op
  | alloc (size_mb : Int)
  | free (addr : Nat)

/-- The state after one public call (the returned value is dropped). -/
def step (a : Allocator) : Op → Allocator
  | Op.alloc s => (allocate a s).2
  | Op.free ad => (deallocate a ad).2

/-- The state after a sequence of public calls. -/
def run (a : Allocator) (ops : List Op) : Allocator :=
  ops.foldl step a

/-- How many entries of the allocated map cover the address-space point `x`. -/
def allocCount : List (Nat × Nat) → Nat → Nat
  | [], _ => 0
  | p :: rest, x => (if p.1 ≤ x ∧ x < p.1 + p.2 then 1 else 0) + allocCount rest x

/-- How many free blocks (over levels `0 .. L-1`, a level-`l` block having
size `S * 2^l`) cover the address-space point `x`. -/
def freeCount (S L : Nat) (free : Nat → Finset Nat) (x : Nat) : Nat :=
  ∑ l in Finset.range L, ((free l).filter (fun ad => ad ≤ x ∧ x < ad + S * 2 ^ l)).card

/-- Total number of blocks (free or allocated) covering the point `x`;
tiling of `[0, total_size)` is `cover a x = 1` for every `x < total_size`. -/
def cover (a : Allocator) (x : Nat) : Nat :=
  allocCount a.allocated_blocks x + freeCount a.min_size a.levels a.free_blocks x

/-- Sum of the recorded sizes of all allocated blocks. -/
def allocSizeSum (l : List (Nat × Nat)) : Nat :=
  (l.map Prod.snd).sum

/-- Sum of the sizes of all blocks in the per-level free sets. -/
def freeSizeSum (a : Allocator) : Nat :=
  ∑ l in Finset.range a.levels, (a.free_blocks l).card * (a.min_size * 2 ^ l)

/-- The data-model invariants of spec §3 for a validly configured allocator:
shape (`total = min·2^(levels-1)`, positive minimum block and level count);
every free block is aligned to its own size and inside the address range;
every allocated block records a legal level size, is aligned to it and inside
the range; the allocated map is key-sorted (keys unique); no two free blocks
of one level are XOR-buddies; and the blocks tile `[0, total)` — each point is
covered exactly once, which subsumes "no address in two places" and
"no overlaps, no gaps". -/
def Inv (a : Allocator) : Prop :=
  (1 ≤ a.min_size ∧ 1 ≤ a.levels ∧ a.total_size = a.min_size * 2 ^ (a.levels - 1))
  ∧ (∀ l < a.levels, ∀ ad ∈ a.free_blocks l,
      (a.min_size * 2 ^ l) ∣ ad ∧ ad + a.min_size * 2 ^ l ≤ a.total_size)
  ∧ (∀ p ∈ a.allocated_blocks, ∃ k < a.levels,
      p.2 = a.min_size * 2 ^ k ∧ p.2 ∣ p.1 ∧ p.1 + p.2 ≤ a.total_size)
  ∧ a.allocated_blocks.Pairwise (fun p q => p.1 < q.1)
  ∧ (∀ l < a.levels - 1, ∀ ad ∈ a.free_blocks l,
      (ad ^^^ (a.min_size * 2 ^ l)) ∉ a.free_blocks l)
  ∧ (∀ x < a.total_size, cover a x = 1)

instance decidableInv (a : Allocator) : Decidable (Inv a) := by
  unfold Inv
  infer_instance

/-- Invariant of the splitting and coalescing loops: the allocator state with
one extra pending block `[cur, cur + S·2^plvl)` in hand (the block being split
on `allocate`, or the block being merged on `deallocate`).  The pending block
is aligned, in range, and together with the free and allocated blocks tiles
`[0, T)`. -/
def PendInv (S L T : Nat) (alloc : List (Nat × Nat)) (free : Nat → Finset Nat)
    (cur plvl : Nat) : Prop :=
  1 ≤ S ∧ plvl < L
  ∧ (S * 2 ^ plvl) ∣ cur ∧ cur + S * 2 ^ plvl ≤ T
  ∧ (∀ l < L, ∀ ad ∈ free l, (S * 2 ^ l) ∣ ad ∧ ad + S * 2 ^ l ≤ T)
  ∧ (∀ l < L - 1, ∀ ad ∈ free l, (ad ^^^ (S * 2 ^ l)) ∉ free l)
  ∧ (∀ x < T, allocCount alloc x + freeCount S L free x
      + (if cur ≤ x ∧ x < cur + S * 2 ^ plvl then 1 else 0) = 1)

/-- Modelled from the spec, §4.1 deallocation step 3: one coalescing step.
With `current_level < L - 1`, the buddy `current_addr XOR (S << current_level)`
is present in the free set at `current_level`; remove it, continue from
`min(current_addr, buddy_addr)` one level up. -/
inductive SpecCoalesceStep (S L : Nat) :
    Nat × Nat × (Nat → Finset Nat) → Nat × Nat × (Nat → Finset Nat) → Prop
  | merge (cur clvl : Nat) (free : Nat → Finset Nat)
      (hlt : clvl < L - 1)
      (hmem : (cur ^^^ (S * 2 ^ clvl)) ∈ free clvl) :
      SpecCoalesceStep S L (cur, clvl, free)
        (min cur (cur ^^^ (S * 2 ^ clvl)), clvl + 1,
          Function.update free clvl ((free clvl).erase (cur ^^^ (S * 2 ^ clvl))))

/-- Modelled from the spec, §4.1 deallocation step 3, stop condition:
"Stop when the buddy is not free or `current_level` reaches `L-1`". -/
def SpecCoalesceStopped (S L : Nat) : Nat × Nat × (Nat → Finset Nat) → Prop
  | (cur, clvl, free) => L - 1 ≤ clvl ∨ (cur ^^^ (S * 2 ^ clvl)) ∉ free clvl

/-! ### Bit arithmetic

The buddy address is computed by `XOR` with the block size.  The lemmas below
characterise when that computation is meaningful: two same-size size-aligned
blocks whose addresses differ by exactly their size via `XOR` are adjacent,
and the lower one is aligned to the doubled size. -/

theorem xor_double_add {r s : Nat} (a b : Nat) (hr : r < 2) (hs : s < 2) :
    (2 * a + r) ^^^ (2 * b + s) = 2 * (a ^^^ b) + (r ^^^ s) := by
  have hrs : r ^^^ s < 2 := by
    interval_cases r <;> interval_cases s <;> decide
  apply Nat.eq_of_testBit_eq
  intro i
  cases i with
  | zero =>
    have h1 : (2 * a + r) % 2 = r := by omega
    have h2 : (2 * b + s) % 2 = s := by omega
    have h3 : (2 * (a ^^^ b) + (r ^^^ s)) % 2 = r ^^^ s := by omega
    rw [Nat.testBit_xor]
    simp only [Nat.testBit_zero]
    rw [h1, h2, h3]
    interval_cases r <;> interval_cases s <;> decide
  | succ i =>
    have h1 : (2 * a + r) / 2 = a := by omega
    have h2 : (2 * b + s) / 2 = b := by omega
    have h3 : (2 * (a ^^^ b) + (r ^^^ s)) / 2 = a ^^^ b := by omega
    rw [Nat.testBit_xor, Nat.testBit_add_one, Nat.testBit_add_one, Nat.testBit_add_one,
      h1, h2, h3, Nat.testBit_xor]

theorem and_double_add {r s : Nat} (a b : Nat) (hr : r < 2) (hs : s < 2) :
    (2 * a + r) &&& (2 * b + s) = 2 * (a &&& b) + (r &&& s) := by
  have hrs : r &&& s < 2 := by
    interval_cases r <;> interval_cases s <;> decide
  apply Nat.eq_of_testBit_eq
  intro i
  cases i with
  | zero =>
    have h1 : (2 * a + r) % 2 = r := by omega
    have h2 : (2 * b + s) % 2 = s := by omega
    have h3 : (2 * (a &&& b) + (r &&& s)) % 2 = r &&& s := by omega
    rw [Nat.testBit_and]
    simp only [Nat.testBit_zero]
    rw [h1, h2, h3]
    interval_cases r <;> interval_cases s <;> decide
  | succ i =>
    have h1 : (2 * a + r) / 2 = a := by omega
    have h2 : (2 * b + s) / 2 = b := by omega
    have h3 : (2 * (a &&& b) + (r &&& s)) / 2 = a &&& b := by omega
    rw [Nat.testBit_and, Nat.testBit_add_one, Nat.testBit_add_one, Nat.testBit_add_one,
      h1, h2, h3, Nat.testBit_and]

/-- Addition decomposes into `XOR` (the carry-free sum) plus twice `AND`
(the carries). -/
theorem add_eq_xor_add_two_mul_and (x y : Nat) : x + y = (x ^^^ y) + 2 * (x &&& y) := by
  induction x using Nat.strong_induction_on generalizing y with
  | _ x ih =>
    rcases Nat.eq_zero_or_pos x with hx | hx
    · subst hx; simp
    · have hx2 : x / 2 < x := Nat.div_lt_self hx (by omega)
      have hdx : x = 2 * (x / 2) + x % 2 := by omega
      have hdy : y = 2 * (y / 2) + y % 2 := by omega
      have h1 : x % 2 < 2 := Nat.mod_lt _ (by omega)
      have h2 : y % 2 < 2 := Nat.mod_lt _ (by omega)
      have hxor := xor_double_add (x / 2) (y / 2) h1 h2
      have hand := and_double_add (x / 2) (y / 2) h1 h2
      have hih := ih (x / 2) hx2 (y / 2)
      have hb : x % 2 + y % 2 = (x % 2 ^^^ y % 2) + 2 * (x % 2 &&& y % 2) := by
        have := h1; have := h2
        interval_cases hx1 : x % 2 <;> interval_cases hy1 : y % 2 <;> decide
      calc x + y = (2 * (x / 2) + x % 2) + (2 * (y / 2) + y % 2) := by omega
        _ = 2 * (x / 2 + y / 2) + (x % 2 + y % 2) := by ring
        _ = 2 * ((x / 2 ^^^ y / 2) + 2 * (x / 2 &&& y / 2))
              + ((x % 2 ^^^ y % 2) + 2 * (x % 2 &&& y % 2)) := by rw [← hih, ← hb]
        _ = (2 * (x / 2 ^^^ y / 2) + (x % 2 ^^^ y % 2))
              + 2 * (2 * (x / 2 &&& y / 2) + (x % 2 &&& y % 2)) := by ring
        _ = (x ^^^ y) + 2 * (x &&& y) := by
              rw [← hxor, ← hand, ← hdx, ← hdy]

/-- `XOR` dominates the difference: `x - y ≤ x ^^^ y`. -/
theorem sub_le_xor (x y : Nat) : x - y ≤ x ^^^ y := by
  have h := add_eq_xor_add_two_mul_and x y
  have h2 : x &&& y ≤ y := Nat.and_le_right
  omega

/-- An odd multiple of `sz` shares a bit with `sz`. -/
theorem odd_mul_and_ne_zero (sz : Nat) (hsz : sz ≠ 0) : ∀ m, m % 2 = 1 →
    (sz * m) &&& sz ≠ 0 := by
  induction sz using Nat.strong_induction_on with
  | _ sz ih =>
    intro m hm
    rcases Nat.even_or_odd sz with he | ho
    · obtain ⟨t, ht⟩ := he
      have ht2 : sz = 2 * t := by omega
      have htz : t ≠ 0 := by omega
      have hlt : t < sz := by omega
      have hrw : sz * m = 2 * (t * m) + 0 := by rw [ht2]; ring
      have hrw2 : sz = 2 * t + 0 := by omega
      intro hcon
      apply ih t hlt htz m hm
      have hda := @and_double_add 0 0 (t * m) t (by norm_num) (by norm_num)
      rw [hrw, hrw2, hda] at hcon
      omega
    · intro hcon
      have h2 : sz % 2 = 1 := Nat.odd_iff.mp ho
      have h1 : (sz * m) % 2 = 1 := by
        rw [Nat.mul_mod sz m 2, h2, hm]
      have h3 : ((sz * m) &&& sz).testBit 0 = true := by
        rw [Nat.testBit_and]
        simp only [Nat.testBit_zero]
        rw [h1, h2]
        decide
      rw [hcon] at h3
      simp at h3

/-- Two distinct size-aligned addresses related by `XOR` with the size are
adjacent multiples of the size, the lower one aligned to twice the size:
exactly a buddy pair. -/
theorem xor_aligned_pair {sz x y : Nat} (hsz : sz ≠ 0) (hx : sz ∣ x) (hy : sz ∣ y)
    (hxy : x ^^^ y = sz) : min x y + sz = max x y ∧ (2 * sz) ∣ min x y := by
  have hne : x ≠ y := by
    intro h; subst h
    simp at hxy
    omega
  have key : ∀ u v : Nat, sz ∣ u → sz ∣ v → u ^^^ v = sz → u < v →
      v = u + sz ∧ (2 * sz) ∣ u := by
    intro u v hu hv huv hlt
    have hsub : v - u ≤ sz := by
      have := sub_le_xor v u
      rw [Nat.xor_comm] at this
      omega
    have hdvd : sz ∣ v - u := Nat.dvd_sub' hv hu
    have hpos : 0 < v - u := by omega
    have hle : sz ≤ v - u := Nat.le_of_dvd hpos hdvd
    have hveq : v = u + sz := by omega
    refine ⟨hveq, ?_⟩
    -- from u + v = (u ^^^ v) + 2 (u &&& v) and v = u + sz: u &&& v = u
    have hsum := add_eq_xor_add_two_mul_and u v
    rw [huv] at hsum
    have hand : u &&& v = u := by omega
    -- hence every bit of u is a bit of v, so u shares no bit with sz
    have handsz : u &&& sz = 0 := by
      apply Nat.eq_of_testBit_eq
      intro i
      simp only [Nat.testBit_and, Nat.zero_testBit]
      rcases hb : u.testBit i with _ | _
      · simp
      · have hvb : v.testBit i = true := by
          have := congrArg (fun t => t.testBit i) hand
          simp only [Nat.testBit_and] at this
          rw [hb] at this
          simp at this
          exact this
        have hszb : sz.testBit i = false := by
          have := congrArg (fun t => t.testBit i) huv
          simp only [Nat.testBit_xor] at this
          rw [hb, hvb] at this
          simpa using this.symm
        simp [hszb]
    -- u = sz * m with m even
    obtain ⟨m, hmeq⟩ := hu
    have hmeven : m % 2 = 0 := by
      by_contra hodd
      have hodd1 : m % 2 = 1 := by omega
      exact odd_mul_and_ne_zero sz hsz m hodd1 (by rw [← hmeq]; exact handsz)
    obtain ⟨t, htm⟩ : 2 ∣ m := by omega
    exact ⟨t, by rw [hmeq, htm]; ring⟩
  rcases Nat.lt_or_ge x y with hlt | hge
  · obtain ⟨h1, h2⟩ := key x y hx hy hxy hlt
    rw [Nat.min_eq_left (by omega), Nat.max_eq_right (by omega)]
    exact ⟨by omega, h2⟩
  · have hlt : y < x := by omega
    obtain ⟨h1, h2⟩ := key y x hy hx (by rw [Nat.xor_comm]; exact hxy) hlt
    rw [Nat.min_eq_right (by omega), Nat.max_eq_left (by omega)]
    exact ⟨by omega, h2⟩

/-- For an address aligned past a power-of-two bit, `XOR` with that bit is
addition — the identity making the source's buddy computation correct for
power-of-two minimum block sizes. -/
theorem xor_pow_eq_add {q a : Nat} (h : 2 ^ (q + 1) ∣ a) : a ^^^ 2 ^ q = a + 2 ^ q := by
  have handz : a &&& 2 ^ q = 0 := by
    apply Nat.eq_of_testBit_eq
    intro i
    simp only [Nat.testBit_and, Nat.zero_testBit]
    by_cases hiq : q = i
    · subst hiq
      have hbit : a.testBit q = false := by
        obtain ⟨k, hk⟩ := h
        rw [Nat.testBit_to_div_mod]
        have hdiv : a / 2 ^ q = 2 * k := by
          rw [hk, Nat.pow_succ, Nat.mul_assoc]
          exact Nat.mul_div_cancel_left (2 * k) (Nat.two_pow_pos q)
        simp [hdiv, Nat.mul_mod_right]
      simp [hbit]
    · have : (2 ^ q).testBit i = false := Nat.testBit_two_pow_of_ne hiq
      simp [this]
  have hsum := add_eq_xor_add_two_mul_and a (2 ^ q)
  rw [handz] at hsum
  omega

/-! ### The fuel-based logarithms agree with `Nat.log 2` / `Nat.clog 2` -/

theorem log2F_eq_log : ∀ fuel n, n ≤ fuel → log2F fuel n = Nat.log 2 n := by
  intro fuel
  induction fuel with
  | zero =>
    intro n hn
    have hz : n = 0 := by omega
    subst hz
    simp [log2F, Nat.log_zero_right]
  | succ fuel ih =>
    intro n hn
    match n with
    | 0 => simp [log2F, Nat.log_zero_right]
    | 1 => simp [log2F, Nat.log_one_right]
    | (m + 2) =>
      have hrec : log2F (fuel + 1) (m + 2) = log2F fuel ((m + 2) / 2) + 1 := by
        simp [log2F]
      rw [hrec, ih ((m + 2) / 2) (by omega)]
      exact (Nat.log_of_one_lt_of_le (by omega) (by omega)).symm

theorem clog2F_eq_clog : ∀ fuel n, n ≤ fuel → clog2F fuel n = Nat.clog 2 n := by
  intro fuel
  induction fuel with
  | zero =>
    intro n hn
    have hz : n = 0 := by omega
    subst hz
    simp [clog2F, Nat.clog_of_right_le_one]
  | succ fuel ih =>
    intro n hn
    match n with
    | 0 => simp [clog2F, Nat.clog_of_right_le_one]
    | 1 => simp [clog2F, Nat.clog_of_right_le_one]
    | (m + 2) =>
      have hrec : clog2F (fuel + 1) (m + 2) = clog2F fuel ((m + 3) / 2) + 1 := by
        simp [clog2F]
      have hb := Nat.clog_of_two_le (b := 2) (n := m + 2) (by omega) (by omega)
      rw [hrec, ih ((m + 3) / 2) (by omega)]
      rw [show m + 2 + 2 - 1 = m + 3 from by omega] at hb
      omega

theorem log2F_pow (k : Nat) : log2F (2 ^ k) (2 ^ k) = k := by
  rw [log2F_eq_log _ _ le_rfl, Nat.log_pow (by omega)]

theorem clog2F_pow (k : Nat) : clog2F (2 ^ k) (2 ^ k) = k := by
  rw [clog2F_eq_clog _ _ le_rfl, Nat.clog_pow 2 k (by omega)]

/-- `_get_level` on a recorded block size `min_size * 2^k` returns exactly `k`. -/
theorem getLevel_pow (a : Allocator) (k : Nat) (hS : 1 ≤ a.min_size) :
    getLevel a ((a.min_size * 2 ^ k : Nat) : Int) = k := by
  unfold getLevel
  have h1 : a.min_size ≤ a.min_size * 2 ^ k :=
    Nat.le_mul_of_pos_right _ (Nat.two_pow_pos k)
  have hge : ¬ ((a.min_size * 2 ^ k : Nat) : Int) < (a.min_size : Int) := by
    rw [Nat.cast_lt]
    omega
  simp only [hge, if_false]
  have htn : ((a.min_size * 2 ^ k : Nat) : Int).toNat = a.min_size * 2 ^ k := Int.toNat_natCast _
  rw [htn]
  show clog2F ((a.min_size * 2 ^ k + a.min_size - 1) / a.min_size)
      ((a.min_size * 2 ^ k + a.min_size - 1) / a.min_size) = k
  have hnum : a.min_size * 2 ^ k + a.min_size - 1 = a.min_size * 2 ^ k + (a.min_size - 1) := by
    omega
  have hdiv : (a.min_size * 2 ^ k + a.min_size - 1) / a.min_size = 2 ^ k := by
    rw [hnum, Nat.mul_add_div hS, Nat.div_eq_of_lt (by omega), Nat.add_zero]
  rw [hdiv, clog2F_pow]

/-- `_get_level` treats every request `≤ min_size` (in particular every
non-positive request) as a request for one minimum block: level `0`. -/
theorem getLevel_nonpos (a : Allocator) (R : Int) (hR : R ≤ 0) : getLevel a R = 0 := by
  unfold getLevel
  rcases Nat.eq_zero_or_pos a.min_size with hm | hm
  · have hcond : (if R < (a.min_size : Int) then a.min_size else R.toNat) = 0 := by
      rw [hm]
      split
      · rfl
      · have : R = 0 := by omega
        simp [this]
    rw [hcond, hm]
    simp [clog2F]
  · have hcond : (if R < (a.min_size : Int) then a.min_size else R.toNat) = a.min_size := by
      have : R < (a.min_size : Int) := by omega
      simp [this]
    rw [hcond]
    show clog2F ((a.min_size + a.min_size - 1) / a.min_size)
        ((a.min_size + a.min_size - 1) / a.min_size) = 0
    have hdiv : (a.min_size + a.min_size - 1) / a.min_size = 1 := by
      apply Nat.div_eq_of_lt_le <;> omega
    rw [hdiv]
    rfl

/-- `_get_level` only looks at `max(size, min_size)`: any two requests that
clamp to the same value get the same level; in particular all `R ≤ min_size`. -/
theorem getLevel_le_min (a : Allocator) (R : Int) (hR : R ≤ (a.min_size : Int)) :
    getLevel a R = getLevel a (a.min_size : Int) := by
  unfold getLevel
  have h2 : (if (a.min_size : Int) < (a.min_size : Int) then a.min_size else (a.min_size : Int).toNat)
      = a.min_size := by simp
  rcases lt_or_ge R (a.min_size : Int) with h | h
  · simp only [h, if_true, h2]
  · have hEq : R = (a.min_size : Int) := le_antisymm hR h
    rw [hEq]

/-! ### Association-list (Python `dict`) lemmas -/

theorem lookupKey_insertKey_self (k v : Nat) :
    ∀ l : List (Nat × Nat), lookupKey k (insertKey k v l) = some v := by
  intro l
  induction l with
  | nil => simp [insertKey, lookupKey]
  | cons p rest ih =>
    by_cases h1 : k < p.1
    · simp [insertKey, lookupKey, h1]
    · by_cases h2 : k = p.1
      · simp [insertKey, lookupKey, h1, h2]
      · have hne : ¬ p.1 = k := fun hh => h2 hh.symm
        simp [insertKey, lookupKey, h1, h2, hne, ih]

theorem lookupKey_eq_none (k : Nat) :
    ∀ l : List (Nat × Nat), lookupKey k l = none ↔ k ∉ l.map Prod.fst := by
  intro l
  induction l with
  | nil => simp [lookupKey]
  | cons p rest ih =>
    by_cases h : p.1 = k
    · simp [lookupKey, h]
    · have hne : ¬ k = p.1 := fun hh => h hh.symm
      simp [lookupKey, h, hne, ih]

theorem lookupKey_mem (k v : Nat) :
    ∀ l : List (Nat × Nat), lookupKey k l = some v → (k, v) ∈ l := by
  intro l
  induction l with
  | nil => simp [lookupKey]
  | cons p rest ih =>
    intro h
    simp only [lookupKey] at h
    by_cases hp : p.1 = k
    · rw [if_pos hp] at h
      have h2 : p.2 = v := by injection h
      rw [List.mem_cons]
      left
      rw [← hp, ← h2]
    · rw [if_neg hp] at h
      exact List.mem_cons_of_mem _ (ih h)

theorem eraseKey_insertKey (k v : Nat) :
    ∀ l : List (Nat × Nat), k ∉ l.map Prod.fst → eraseKey k (insertKey k v l) = l := by
  intro l
  induction l with
  | nil => simp [insertKey, eraseKey]
  | cons p rest ih =>
    intro hmem
    simp only [List.map_cons, List.mem_cons] at hmem
    push_neg at hmem
    obtain ⟨hne, hrest⟩ := hmem
    by_cases h1 : k < p.1
    · simp [insertKey, eraseKey, h1]
    · have h2 : ¬ k = p.1 := fun hh => hne hh
      have h3 : ¬ p.1 = k := fun hh => hne hh.symm
      simp [insertKey, eraseKey, h1, h2, h3, ih hrest]

theorem mem_insertKey (k v : Nat) (q : Nat × Nat) :
    ∀ l : List (Nat × Nat), q ∈ insertKey k v l → q = (k, v) ∨ q ∈ l := by
  intro l
  induction l with
  | nil => simp [insertKey]
  | cons p rest ih =>
    intro hq
    simp only [insertKey] at hq
    by_cases h1 : k < p.1
    · rw [if_pos h1] at hq
      rcases List.mem_cons.mp hq with hq | hq
      · exact Or.inl hq
      · exact Or.inr hq
    · rw [if_neg h1] at hq
      by_cases h2 : k = p.1
      · rw [if_pos h2] at hq
        rcases List.mem_cons.mp hq with hq | hq
        · exact Or.inl hq
        · exact Or.inr (List.mem_cons_of_mem _ hq)
      · rw [if_neg h2] at hq
        rcases List.mem_cons.mp hq with hq | hq
        · exact Or.inr (List.mem_cons.mpr (Or.inl hq))
        · rcases ih hq with hh | hh
          · exact Or.inl hh
          · exact Or.inr (List.mem_cons_of_mem _ hh)

theorem mem_eraseKey (k : Nat) (q : Nat × Nat) :
    ∀ l : List (Nat × Nat), q ∈ eraseKey k l → q ∈ l := by
  intro l
  induction l with
  | nil => simp [eraseKey]
  | cons p rest ih =>
    intro hq
    by_cases h1 : p.1 = k
    · simp only [eraseKey, h1, if_true] at hq
      exact List.mem_cons_of_mem _ hq
    · simp only [eraseKey, h1, if_false, List.mem_cons] at hq
      rcases hq with hq | hq
      · simp [hq]
      · exact List.mem_cons_of_mem _ (ih hq)

theorem eraseKey_sublist (k : Nat) :
    ∀ l : List (Nat × Nat), (eraseKey k l).Sublist l := by
  intro l
  induction l with
  | nil => simp [eraseKey]
  | cons p rest ih =>
    by_cases h1 : p.1 = k
    · simp only [eraseKey, h1, if_true]
      exact (List.sublist_cons_self p rest)
    · simp only [eraseKey, h1, if_false]
      exact List.Sublist.cons₂ p ih

theorem insertKey_pairwise (k v : Nat) :
    ∀ l : List (Nat × Nat), l.Pairwise (fun p q => p.1 < q.1) →
      (insertKey k v l).Pairwise (fun p q => p.1 < q.1) := by
  intro l
  induction l with
  | nil => simp [insertKey]
  | cons p rest ih =>
    intro hpw
    rw [List.pairwise_cons] at hpw
    obtain ⟨hall, hrest⟩ := hpw
    simp only [insertKey]
    by_cases h1 : k < p.1
    · rw [if_pos h1, List.pairwise_cons]
      constructor
      · intro q hq
        rcases List.mem_cons.mp hq with hh | hh
        · rw [hh]; exact h1
        · exact lt_trans h1 (hall q hh)
      · rw [List.pairwise_cons]
        exact ⟨hall, hrest⟩
    · rw [if_neg h1]
      by_cases h2 : k = p.1
      · rw [if_pos h2, List.pairwise_cons]
        refine ⟨fun q hq => ?_, hrest⟩
        show k < q.1
        rw [h2]
        exact hall q hq
      · rw [if_neg h2, List.pairwise_cons]
        refine ⟨fun q hq => ?_, ih hrest⟩
        rcases mem_insertKey k v q rest hq with hh | hh
        · rw [hh]; show p.1 < k; omega
        · exact hall q hh

theorem keys_nodup_of_pairwise {l : List (Nat × Nat)}
    (h : l.Pairwise (fun p q => p.1 < q.1)) : (l.map Prod.fst).Nodup := by
  rw [List.Nodup, List.pairwise_map]
  exact h.imp (fun hlt => ne_of_lt hlt)

/-! ### Counting lemmas for the tiling invariant -/

theorem allocCount_pos_of_mem {l : List (Nat × Nat)} {k v x : Nat}
    (hm : (k, v) ∈ l) (hc : k ≤ x ∧ x < k + v) : 1 ≤ allocCount l x := by
  induction l with
  | nil => simp at hm
  | cons p rest ih =>
    rcases List.mem_cons.mp hm with hh | hh
    · simp only [allocCount]
      rw [← hh]
      simp only [hc, and_true, if_pos]
      omega
    · simp only [allocCount]
      have := ih hh
      omega

theorem allocCount_insertKey (k v x : Nat) :
    ∀ l : List (Nat × Nat), k ∉ l.map Prod.fst →
      allocCount (insertKey k v l) x
        = (if k ≤ x ∧ x < k + v then 1 else 0) + allocCount l x := by
  intro l
  induction l with
  | nil => intro _; simp [insertKey, allocCount]
  | cons p rest ih =>
    intro hk
    simp only [List.map_cons, List.mem_cons] at hk
    push_neg at hk
    obtain ⟨hne, hrest⟩ := hk
    simp only [insertKey]
    by_cases h1 : k < p.1
    · rw [if_pos h1]
      simp only [allocCount]
    · rw [if_neg h1, if_neg (fun hh => hne hh)]
      simp only [allocCount, ih hrest]
      ring

theorem allocCount_eraseKey (k v x : Nat) :
    ∀ l : List (Nat × Nat), (l.map Prod.fst).Nodup → (k, v) ∈ l →
      allocCount (eraseKey k l) x + (if k ≤ x ∧ x < k + v then 1 else 0)
        = allocCount l x := by
  intro l
  induction l with
  | nil => simp
  | cons p rest ih =>
    intro hnd hm
    simp only [List.map_cons, List.nodup_cons] at hnd
    obtain ⟨hp1, hrest⟩ := hnd
    simp only [eraseKey]
    by_cases h1 : p.1 = k
    · rw [if_pos h1]
      have hpv : p = (k, v) := by
        rcases List.mem_cons.mp hm with hh | hh
        · exact hh.symm
        · exfalso
          apply hp1
          rw [h1]
          exact List.mem_map.mpr ⟨(k, v), hh, rfl⟩
      simp only [allocCount, hpv]
      ring
    · rw [if_neg h1]
      have hmr : (k, v) ∈ rest := by
        rcases List.mem_cons.mp hm with hh | hh
        · exfalso; apply h1; rw [← hh]
        · exact hh
      simp only [allocCount]
      have := ih hrest hmr
      omega

theorem card_filter_insert (b : Nat) (s : Finset Nat) (p : Nat → Prop) [DecidablePred p]
    (hb : b ∉ s) :
    ((insert b s).filter p).card = (s.filter p).card + (if p b then 1 else 0) := by
  rw [Finset.filter_insert]
  by_cases hpb : p b
  · rw [if_pos hpb, if_pos hpb,
      Finset.card_insert_of_not_mem (fun hc => hb (Finset.mem_of_mem_filter b hc))]
  · rw [if_neg hpb, if_neg hpb, Nat.add_zero]

theorem card_filter_erase (a : Nat) (s : Finset Nat) (p : Nat → Prop) [DecidablePred p]
    (ha : a ∈ s) :
    ((s.erase a).filter p).card + (if p a then 1 else 0) = (s.filter p).card := by
  rw [Finset.filter_erase]
  by_cases hpa : p a
  · rw [if_pos hpa]
    exact Finset.card_erase_add_one (Finset.mem_filter.mpr ⟨ha, hpa⟩)
  · rw [if_neg hpa, Finset.erase_eq_of_not_mem (fun hc => hpa (Finset.mem_filter.mp hc).2),
      Nat.add_zero]

theorem freeCount_update (S L x j : Nat) (free : Nat → Finset Nat) (t : Finset Nat)
    (hj : j < L) :
    freeCount S L (Function.update free j t) x
        + ((free j).filter (fun ad => ad ≤ x ∧ x < ad + S * 2 ^ j)).card
      = freeCount S L free x
        + (t.filter (fun ad => ad ≤ x ∧ x < ad + S * 2 ^ j)).card := by
  unfold freeCount
  have key : ∀ l ∈ Finset.range L,
      ((Function.update free j t l).filter (fun ad => ad ≤ x ∧ x < ad + S * 2 ^ l)).card
        = Function.update (fun l => ((free l).filter (fun ad => ad ≤ x ∧ x < ad + S * 2 ^ l)).card)
            j ((t.filter (fun ad => ad ≤ x ∧ x < ad + S * 2 ^ j)).card) l := by
    intro l _
    by_cases h : l = j
    · subst h
      rw [Function.update_same, Function.update_same]
    · rw [Function.update_noteq h, Function.update_noteq h]
  rw [Finset.sum_congr rfl key, Finset.sum_update_of_mem (Finset.mem_range.mpr hj),
    Finset.sum_eq_sum_diff_singleton_add (Finset.mem_range.mpr hj)
      (fun l => ((free l).filter (fun ad => ad ≤ x ∧ x < ad + S * 2 ^ l)).card)]
  ring

theorem freeCount_pos {S L x l ad : Nat} {free : Nat → Finset Nat}
    (hl : l < L) (had : ad ∈ free l) (hc : ad ≤ x ∧ x < ad + S * 2 ^ l) :
    1 ≤ freeCount S L free x := by
  unfold freeCount
  have h1 : 1 ≤ ((free l).filter (fun ad => ad ≤ x ∧ x < ad + S * 2 ^ l)).card := by
    rw [Nat.succ_le_iff, Finset.card_pos]
    exact ⟨ad, Finset.mem_filter.mpr ⟨had, hc⟩⟩
  calc 1 ≤ ((free l).filter (fun ad => ad ≤ x ∧ x < ad + S * 2 ^ l)).card := h1
    _ ≤ _ := Finset.single_le_sum (f := fun l => ((free l).filter
          (fun ad => ad ≤ x ∧ x < ad + S * 2 ^ l)).card)
          (fun _ _ => Nat.zero_le _) (Finset.mem_range.mpr hl)

theorem freeCount_two {S L x j l adj adl : Nat} {free : Nat → Finset Nat}
    (hjl : j ≠ l) (hj : j < L) (hl : l < L)
    (hadj : adj ∈ free j) (hcj : adj ≤ x ∧ x < adj + S * 2 ^ j)
    (hadl : adl ∈ free l) (hcl : adl ≤ x ∧ x < adl + S * 2 ^ l) :
    2 ≤ freeCount S L free x := by
  unfold freeCount
  have hx1 : 1 ≤ ((free j).filter (fun ad => ad ≤ x ∧ x < ad + S * 2 ^ j)).card := by
    rw [Nat.succ_le_iff, Finset.card_pos]
    exact ⟨adj, Finset.mem_filter.mpr ⟨hadj, hcj⟩⟩
  have hx2 : 1 ≤ ((free l).filter (fun ad => ad ≤ x ∧ x < ad + S * 2 ^ l)).card := by
    rw [Nat.succ_le_iff, Finset.card_pos]
    exact ⟨adl, Finset.mem_filter.mpr ⟨hadl, hcl⟩⟩
  have hsplit := Finset.sum_eq_sum_diff_singleton_add (Finset.mem_range.mpr hj)
    (fun l => ((free l).filter (fun ad => ad ≤ x ∧ x < ad + S * 2 ^ l)).card)
  have hmem2 : l ∈ Finset.range L \ {j} := by
    rw [Finset.mem_sdiff, Finset.mem_range]
    exact ⟨hl, by simp [hjl.symm]⟩
  have h2 : 1 ≤ ∑ m in Finset.range L \ {j},
      ((free m).filter (fun ad => ad ≤ x ∧ x < ad + S * 2 ^ m)).card :=
    le_trans hx2 (Finset.single_le_sum
      (f := fun m => ((free m).filter (fun ad => ad ≤ x ∧ x < ad + S * 2 ^ m)).card)
      (fun _ _ => Nat.zero_le _) hmem2)
  omega

/-! ### Scan and coalesce loop lemmas -/

theorem scanLevel_some {free : Nat → Finset Nat} :
    ∀ fuel lvl j, scanLevel free lvl fuel = some j →
      lvl ≤ j ∧ j < lvl + fuel ∧ (free j).Nonempty := by
  intro fuel
  induction fuel with
  | zero => intro lvl j h; simp [scanLevel] at h
  | succ fuel ih =>
    intro lvl j h
    simp only [scanLevel] at h
    by_cases hne : (free lvl).Nonempty
    · rw [if_pos hne] at h
      injection h with h
      subst h
      exact ⟨le_rfl, by omega, hne⟩
    · rw [if_neg hne] at h
      obtain ⟨h1, h2, h3⟩ := ih (lvl + 1) j h
      exact ⟨by omega, by omega, h3⟩

theorem scanLevel_none {free : Nat → Finset Nat} :
    ∀ fuel lvl, scanLevel free lvl fuel = none ↔
      ∀ j, lvl ≤ j → j < lvl + fuel → free j = ∅ := by
  intro fuel
  induction fuel with
  | zero =>
    intro lvl
    constructor
    · intro _ j h1 h2
      omega
    · intro _
      rfl
  | succ fuel ih =>
    intro lvl
    simp only [scanLevel]
    by_cases hne : (free lvl).Nonempty
    · rw [if_pos hne]
      constructor
      · intro hcon
        exact Option.noConfusion hcon
      · intro hall
        exfalso
        rw [hall lvl le_rfl (by omega)] at hne
        exact Finset.not_nonempty_empty hne
    · rw [if_neg hne, ih (lvl + 1)]
      constructor
      · intro hall j hj1 hj2
        rcases Nat.eq_or_lt_of_le hj1 with hh | hh
        · rw [← hh]
          exact Finset.not_nonempty_iff_eq_empty.mp hne
        · exact hall j hh (by omega)
      · intro hall j hj1 hj2
        exact hall j (by omega) (by omega)

theorem coalesce_stop (S L fuel cur clvl : Nat) (free : Nat → Finset Nat)
    (h : L - 1 ≤ clvl ∨ (cur ^^^ (S * 2 ^ clvl)) ∉ free clvl) :
    coalesce S L fuel cur clvl free = (cur, clvl, free) := by
  cases fuel with
  | zero => rfl
  | succ fuel =>
    simp only [coalesce]
    rcases h with h | h
    · rw [if_neg (by omega)]
    · by_cases h2 : clvl < L - 1
      · rw [if_pos h2, if_neg h]
      · rw [if_neg h2]

theorem coalesce_rtg (S L : Nat) : ∀ fuel cur clvl free, L - 1 ≤ clvl + fuel →
    Relation.ReflTransGen (SpecCoalesceStep S L) (cur, clvl, free)
        (coalesce S L fuel cur clvl free)
    ∧ SpecCoalesceStopped S L (coalesce S L fuel cur clvl free) := by
  intro fuel
  induction fuel with
  | zero =>
    intro cur clvl free hf
    rw [coalesce_stop S L 0 cur clvl free (Or.inl (by omega))]
    exact ⟨Relation.ReflTransGen.refl, Or.inl (by omega)⟩
  | succ fuel ih =>
    intro cur clvl free hf
    by_cases h1 : clvl < L - 1
    · by_cases h2 : (cur ^^^ (S * 2 ^ clvl)) ∈ free clvl
      · have hstep : SpecCoalesceStep S L (cur, clvl, free)
            (min cur (cur ^^^ (S * 2 ^ clvl)), clvl + 1,
              Function.update free clvl ((free clvl).erase (cur ^^^ (S * 2 ^ clvl)))) :=
          SpecCoalesceStep.merge cur clvl free h1 h2
        have hrec : coalesce S L (fuel + 1) cur clvl free
            = coalesce S L fuel (min cur (cur ^^^ (S * 2 ^ clvl))) (clvl + 1)
                (Function.update free clvl ((free clvl).erase (cur ^^^ (S * 2 ^ clvl)))) := by
          simp only [coalesce]
          rw [if_pos h1, if_pos h2]
        obtain ⟨hrtg, hstop⟩ := ih (min cur (cur ^^^ (S * 2 ^ clvl))) (clvl + 1)
          (Function.update free clvl ((free clvl).erase (cur ^^^ (S * 2 ^ clvl)))) (by omega)
        rw [hrec]
        exact ⟨Relation.ReflTransGen.head hstep hrtg, hstop⟩
      · rw [coalesce_stop S L (fuel + 1) cur clvl free (Or.inr h2)]
        exact ⟨Relation.ReflTransGen.refl, Or.inr h2⟩
    · rw [coalesce_stop S L (fuel + 1) cur clvl free (Or.inl (by omega))]
      exact ⟨Relation.ReflTransGen.refl, Or.inl (by omega)⟩

/-! ### Preservation of the pending-block invariant -/

theorem sz_pos {S : Nat} (hS : 1 ≤ S) (l : Nat) : 1 ≤ S * 2 ^ l := by
  have h2 : 1 ≤ 2 ^ l := Nat.one_le_two_pow
  calc 1 = 1 * 1 := by ring
    _ ≤ S * 2 ^ l := Nat.mul_le_mul hS h2

/-- No free block overlaps the pending block. -/
theorem pend_no_overlap {S L T : Nat} {alloc : List (Nat × Nat)}
    {free : Nat → Finset Nat} {cur plvl : Nat}
    (hP : PendInv S L T alloc free cur plvl)
    {l y x : Nat} (hl : l < L) (hy : y ∈ free l)
    (hyx : y ≤ x ∧ x < y + S * 2 ^ l)
    (hcx : cur ≤ x ∧ x < cur + S * 2 ^ plvl) : False := by
  obtain ⟨hS, hplvl, hdvd, hbound, hfree, hnb, htile⟩ := hP
  have hxT : x < T := by
    have := (hfree l hl y hy).2
    omega
  have h1 : 1 ≤ freeCount S L free x := freeCount_pos hl hy hyx
  have := htile x hxT
  rw [if_pos hcx] at this
  omega

/-- The pending block's own address is in no free set. -/
theorem pend_not_mem {S L T : Nat} {alloc : List (Nat × Nat)}
    {free : Nat → Finset Nat} {cur plvl : Nat}
    (hP : PendInv S L T alloc free cur plvl) {l : Nat} (hl : l < L) :
    cur ∉ free l := by
  intro hmem
  have hS := hP.1
  have hplvl := hP.2.1
  exact pend_no_overlap hP hl hmem
    ⟨le_rfl, by have := sz_pos hS l; omega⟩
    ⟨le_rfl, by have := sz_pos hS plvl; omega⟩

/-- One coalescing merge step preserves the pending-block invariant. -/
theorem coalesce_step_pend {S L T : Nat} {alloc : List (Nat × Nat)}
    {free : Nat → Finset Nat} {cur clvl : Nat}
    (hP : PendInv S L T alloc free cur clvl)
    (h1 : clvl < L - 1)
    (h2 : (cur ^^^ (S * 2 ^ clvl)) ∈ free clvl) :
    PendInv S L T alloc
      (Function.update free clvl ((free clvl).erase (cur ^^^ (S * 2 ^ clvl))))
      (min cur (cur ^^^ (S * 2 ^ clvl))) (clvl + 1) := by
  obtain ⟨hS, hplvl, hdvd, hbound, hfree, hnb, htile⟩ := hP
  have hszpos : 1 ≤ S * 2 ^ clvl := sz_pos hS clvl
  have hclvlL : clvl < L := hplvl
  have hbud := hfree clvl hclvlL (cur ^^^ (S * 2 ^ clvl)) h2
  have hxab : cur ^^^ (cur ^^^ (S * 2 ^ clvl)) = S * 2 ^ clvl := Nat.xor_cancel_left _ _
  have hpair := xor_aligned_pair (by omega) hdvd hbud.1 hxab
  have h2sz : S * 2 ^ (clvl + 1) = 2 * (S * 2 ^ clvl) := by ring
  have hcases : (cur = min cur (cur ^^^ (S * 2 ^ clvl))
        ∧ cur ^^^ (S * 2 ^ clvl) = min cur (cur ^^^ (S * 2 ^ clvl)) + S * 2 ^ clvl)
      ∨ (cur ^^^ (S * 2 ^ clvl) = min cur (cur ^^^ (S * 2 ^ clvl))
        ∧ cur = min cur (cur ^^^ (S * 2 ^ clvl)) + S * 2 ^ clvl) := by
    rcases le_total cur (cur ^^^ (S * 2 ^ clvl)) with hle | hle
    · left
      rw [min_eq_left hle]
      rw [min_eq_left hle, max_eq_right hle] at hpair
      exact ⟨rfl, hpair.1.symm⟩
    · right
      rw [min_eq_right hle]
      rw [min_eq_right hle, max_eq_left hle] at hpair
      exact ⟨rfl, hpair.1.symm⟩
  refine ⟨hS, by omega, ?_, ?_, ?_, ?_, ?_⟩
  · -- alignment of the merged block
    rw [h2sz]
    exact hpair.2
  · -- merged block in range
    rw [h2sz]
    rcases hcases with ⟨hc1, hc2⟩ | ⟨hc1, hc2⟩
    · have := hbud.2
      omega
    · have := hbound
      omega
  · -- free sets still aligned and bounded
    intro l hl y hy
    by_cases hlc : l = clvl
    · subst hlc
      rw [Function.update_same] at hy
      exact hfree l hl y (Finset.mem_of_mem_erase hy)
    · rw [Function.update_noteq hlc] at hy
      exact hfree l hl y hy
  · -- no same-level buddy pairs among the remaining free blocks
    intro l hl y hy
    by_cases hlc : l = clvl
    · subst hlc
      rw [Function.update_same] at hy ⊢
      intro hcon
      exact hnb l hl y (Finset.mem_of_mem_erase hy) (Finset.mem_of_mem_erase hcon)
    · rw [Function.update_noteq hlc] at hy ⊢
      exact hnb l hl y hy
  · -- tiling
    intro x hx
    have htx := htile x hx
    have hup := freeCount_update S L x clvl free
      ((free clvl).erase (cur ^^^ (S * 2 ^ clvl))) hclvlL
    have her := card_filter_erase (cur ^^^ (S * 2 ^ clvl)) (free clvl)
      (fun ad => ad ≤ x ∧ x < ad + S * 2 ^ clvl) h2
    simp only [] at her
    have hind : (if min cur (cur ^^^ (S * 2 ^ clvl)) ≤ x
          ∧ x < min cur (cur ^^^ (S * 2 ^ clvl)) + S * 2 ^ (clvl + 1) then 1 else 0)
        = (if cur ≤ x ∧ x < cur + S * 2 ^ clvl then 1 else 0)
          + (if cur ^^^ (S * 2 ^ clvl) ≤ x
              ∧ x < (cur ^^^ (S * 2 ^ clvl)) + S * 2 ^ clvl then 1 else 0) := by
      rw [h2sz]
      rcases hcases with ⟨hc1, hc2⟩ | ⟨hc1, hc2⟩ <;>
        · rw [← hc1] at hc2 ⊢
          split_ifs <;> omega
    rw [hind]
    omega

/-- Running the coalescing loop from a pending block preserves the invariant
and stops at the stop condition. -/
theorem coalesce_pend {S L T : Nat} {alloc : List (Nat × Nat)} :
    ∀ fuel cur clvl (free : Nat → Finset Nat),
      PendInv S L T alloc free cur clvl → L - 1 ≤ clvl + fuel →
      PendInv S L T alloc (coalesce S L fuel cur clvl free).2.2
          (coalesce S L fuel cur clvl free).1 (coalesce S L fuel cur clvl free).2.1
        ∧ SpecCoalesceStopped S L (coalesce S L fuel cur clvl free) := by
  intro fuel
  induction fuel with
  | zero =>
    intro cur clvl free hP hf
    rw [coalesce_stop S L 0 cur clvl free (Or.inl (by omega))]
    exact ⟨hP, Or.inl (by omega)⟩
  | succ fuel ih =>
    intro cur clvl free hP hf
    by_cases h1 : clvl < L - 1
    · by_cases h2 : (cur ^^^ (S * 2 ^ clvl)) ∈ free clvl
      · have hrec : coalesce S L (fuel + 1) cur clvl free
            = coalesce S L fuel (min cur (cur ^^^ (S * 2 ^ clvl))) (clvl + 1)
                (Function.update free clvl ((free clvl).erase (cur ^^^ (S * 2 ^ clvl)))) := by
          simp only [coalesce]
          rw [if_pos h1, if_pos h2]
        rw [hrec]
        exact ih _ _ _ (coalesce_step_pend hP h1 h2) (by omega)
      · rw [coalesce_stop S L (fuel + 1) cur clvl free (Or.inr h2)]
        exact ⟨hP, Or.inr h2⟩
    · rw [coalesce_stop S L (fuel + 1) cur clvl free (Or.inl (by omega))]
      exact ⟨hP, Or.inl (by omega)⟩

/-- Characterisation of the buddy of the upper half produced by a split:
any aligned address XOR-related to it by the block size is the lower half. -/
theorem xor_split_buddy {S d cur z : Nat} (hS : 1 ≤ S)
    (hcur : (S * 2 ^ (d + 1)) ∣ cur) (hz : (S * 2 ^ d) ∣ z)
    (hxz : z ^^^ (S * 2 ^ d) = cur + S * 2 ^ d) : z = cur := by
  have hszpos : 1 ≤ S * 2 ^ d := sz_pos hS d
  have h2sz : S * 2 ^ (d + 1) = 2 * (S * 2 ^ d) := by ring
  have hb : (S * 2 ^ d) ∣ (cur + S * 2 ^ d) := by
    refine Nat.dvd_add ?_ dvd_rfl
    exact dvd_trans ⟨2, by ring⟩ hcur
  have hzb : z ^^^ (cur + S * 2 ^ d) = S * 2 ^ d := by
    have := Nat.xor_cancel_left z (S * 2 ^ d)
    rw [hxz] at this
    exact this
  have hpair := xor_aligned_pair (by omega) hz hb hzb
  -- cur + sz is an odd multiple of sz, hence not the aligned lower half
  obtain ⟨t, ht⟩ := hcur
  have hbodd : ¬ (2 * (S * 2 ^ d)) ∣ (cur + S * 2 ^ d) := by
    intro hcon
    obtain ⟨u, hu⟩ := hcon
    rw [ht, h2sz] at hu
    have : 2 * t + 1 = 2 * u := by
      have hcalc : (S * 2 ^ d) * (2 * t + 1) = (S * 2 ^ d) * (2 * u) := by ring_nf; ring_nf at hu; omega
      exact Nat.eq_of_mul_eq_mul_left (by omega) hcalc
    omega
  rcases le_total z (cur + S * 2 ^ d) with hle | hle
  · rw [min_eq_left hle, max_eq_right hle] at hpair
    omega
  · rw [min_eq_right hle, max_eq_left hle] at hpair
    exact absurd hpair.2 hbodd

/-- One split step (adding the upper half at the level below) preserves the
pending-block invariant. -/
theorem split_step_pend {S L T : Nat} {alloc : List (Nat × Nat)}
    {free : Nat → Finset Nat} {cur d : Nat}
    (hP : PendInv S L T alloc free cur (d + 1)) :
    PendInv S L T alloc
      (Function.update free d (insert (cur + S * 2 ^ d) (free d)))
      cur d := by
  have hnotmem := fun hl => pend_not_mem hP (l := d) hl
  obtain ⟨hS, hplvl, hdvd, hbound, hfree, hnb, htile⟩ := hP
  have hszpos : 1 ≤ S * 2 ^ d := sz_pos hS d
  have h2sz : S * 2 ^ (d + 1) = 2 * (S * 2 ^ d) := by ring
  have hdL : d < L := by omega
  have hdvd2 : (S * 2 ^ d) ∣ cur := dvd_trans ⟨2, by ring⟩ hdvd
  have hbdvd : (S * 2 ^ d) ∣ (cur + S * 2 ^ d) := Nat.dvd_add hdvd2 dvd_rfl
  have hbnot : (cur + S * 2 ^ d) ∉ free d := by
    intro hmem
    exact pend_no_overlap ⟨hS, hplvl, hdvd, hbound, hfree, hnb, htile⟩ hdL hmem
      ⟨le_rfl, by omega⟩ ⟨by omega, by omega⟩
  refine ⟨hS, hdL, hdvd2, by omega, ?_, ?_, ?_⟩
  · -- free sets aligned and bounded
    intro l hl y hy
    by_cases hlc : l = d
    · subst hlc
      rw [Function.update_same] at hy
      rcases Finset.mem_insert.mp hy with hh | hh
      · subst hh
        exact ⟨hbdvd, by omega⟩
      · exact hfree l hl y hh
    · rw [Function.update_noteq hlc] at hy
      exact hfree l hl y hy
  · -- no same-level buddy pairs
    intro l hl y hy
    by_cases hlc : l = d
    · subst hlc
      rw [Function.update_same] at hy ⊢
      have hfg : ∀ z ∈ free l, (S * 2 ^ l) ∣ z := fun z hz => (hfree l (by omega) z hz).1
      rcases Finset.mem_insert.mp hy with hh | hh
      · -- y is the newly added upper half
        subst hh
        intro hcon
        rcases Finset.mem_insert.mp hcon with hc | hc
        · -- its xor-buddy cannot be itself
          have h0 : S * 2 ^ l = 0 := by
            have hback := Nat.xor_cancel_left (cur + S * 2 ^ l) (S * 2 ^ l)
            rw [hc] at hback
            rw [Nat.xor_self] at hback
            omega
          omega
        · -- its xor-buddy in the free set would be the pending lower half
          have hz := xor_split_buddy hS hdvd (hfg _ hc)
            (by rw [Nat.xor_comm] at hc ⊢
                have := Nat.xor_cancel_right (S * 2 ^ l) ((cur + S * 2 ^ l) ^^^ (S * 2 ^ l))
                rw [Nat.xor_comm ((cur + S * 2 ^ l) ^^^ (S * 2 ^ l)) (S * 2 ^ l)] at this
                rw [Nat.xor_comm]
                exact Nat.xor_cancel_right _ _)
          exact hnotmem (by omega) (hz ▸ hc)
      · -- y was already free at this level
        intro hcon
        rcases Finset.mem_insert.mp hcon with hc | hc
        · have hz := xor_split_buddy hS hdvd (hfg y hh) hc
          exact hnotmem (by omega) (hz ▸ hh)
        · exact hnb l hl y hh hc
    · rw [Function.update_noteq hlc] at hy ⊢
      exact hnb l hl y hy
  · -- tiling
    intro x hx
    have htx := htile x hx
    have hup := freeCount_update S L x d free (insert (cur + S * 2 ^ d) (free d)) hdL
    have hin := card_filter_insert (cur + S * 2 ^ d) (free d)
      (fun ad => ad ≤ x ∧ x < ad + S * 2 ^ d) hbnot
    simp only [] at hin
    have hind : (if cur ≤ x ∧ x < cur + S * 2 ^ (d + 1) then 1 else 0)
        = (if cur ≤ x ∧ x < cur + S * 2 ^ d then 1 else 0)
          + (if cur + S * 2 ^ d ≤ x ∧ x < cur + S * 2 ^ d + S * 2 ^ d then 1 else 0) := by
      split_ifs <;> omega
    rw [hind] at htx
    omega

/-- The whole split loop preserves the pending-block invariant, taking the
pending block from the found level down to the target level. -/
theorem splitDown_pend {S L T : Nat} {alloc : List (Nat × Nat)} {cur level : Nat} :
    ∀ lvl (free : Nat → Finset Nat), level ≤ lvl →
      PendInv S L T alloc free cur lvl →
      PendInv S L T alloc (splitDown S cur level lvl free) cur level := by
  intro lvl
  induction lvl with
  | zero =>
    intro free hle hP
    have : level = 0 := by omega
    subst this
    exact hP
  | succ lvl ih =>
    intro free hle hP
    by_cases hlt : level < lvl + 1
    · have hrec : splitDown S cur level (lvl + 1) free
          = splitDown S cur level lvl
              (Function.update free lvl (insert (cur + S * 2 ^ lvl) (free lvl))) := by
        simp only [splitDown]
        rw [if_pos hlt]
      rw [hrec]
      exact ih _ (by omega) (split_step_pend hP)
    · have : level = lvl + 1 := by omega
      have hrec : splitDown S cur level (lvl + 1) free = free := by
        simp only [splitDown]
        rw [if_neg hlt]
      rw [hrec, this]
      exact hP

theorem popMin_eq {s : Finset Nat} (h : s.Nonempty) : popMin s = some (s.min' h) :=
  dif_pos h

/-- The pending block's address is not a key of the allocated map (sizes in
the map are positive). -/
theorem pend_not_key {S L T : Nat} {alloc : List (Nat × Nat)}
    {free : Nat → Finset Nat} {cur plvl : Nat}
    (hP : PendInv S L T alloc free cur plvl)
    (hpos : ∀ p ∈ alloc, 1 ≤ p.2) : cur ∉ alloc.map Prod.fst := by
  intro hmem
  obtain ⟨p, hp, hfst⟩ := List.mem_map.mp hmem
  obtain ⟨hS, hplvl, hdvd, hbound, hfree, hnb, htile⟩ := hP
  have hszpos : 1 ≤ S * 2 ^ plvl := sz_pos hS plvl
  have hac : 1 ≤ allocCount alloc cur := by
    apply allocCount_pos_of_mem (k := p.1) (v := p.2)
    · exact (Prod.mk.eta) ▸ hp
    · constructor
      · omega
      · have := hpos p hp
        omega
  have := htile cur (by omega)
  rw [if_pos ⟨le_rfl, by omega⟩] at this
  omega

/-! ### Case analysis of `allocate` and `deallocate` -/

/-- A failed scan means `allocate` returns `None` and leaves the state
untouched; and conversely. -/
theorem allocate_fst_none_iff (a : Allocator) (R : Int) :
    (allocate a R).1 = none ↔
      ∀ l < a.levels, getLevel a R ≤ l → a.free_blocks l = ∅ := by
  rcases hscan : scanLevel a.free_blocks (getLevel a R) (a.levels - getLevel a R)
    with _ | lvl
  · simp only [allocate, hscan]
    constructor
    · intro _ l hl hlev
      exact (scanLevel_none _ _).mp hscan l hlev (by omega)
    · intro _
      trivial
  · obtain ⟨h1, h2, h3⟩ := scanLevel_some _ _ _ hscan
    simp only [allocate, hscan, popMin_eq h3]
    constructor
    · intro hcon
      exact Option.noConfusion hcon
    · intro hall
      exfalso
      rw [hall lvl (by omega) h1] at h3
      exact Finset.not_nonempty_empty h3

theorem allocate_none_state {a : Allocator} {R : Int}
    (h : (allocate a R).1 = none) : allocate a R = (none, a) := by
  rcases hscan : scanLevel a.free_blocks (getLevel a R) (a.levels - getLevel a R)
    with _ | lvl
  · simp only [allocate, hscan]
  · obtain ⟨h1, h2, h3⟩ := scanLevel_some _ _ _ hscan
    simp only [allocate, hscan, popMin_eq h3] at h
    exact Option.noConfusion h

/-- Structure of a successful `allocate`: the address is popped from the
first non-empty level at or above the target, the block is split back down,
and the address is recorded with size `min_size · 2^level`. -/
theorem allocate_some_spec {a : Allocator} {R : Int} {addr : Nat} {a₁ : Allocator}
    (h : allocate a R = (some addr, a₁)) :
    ∃ lvl, getLevel a R ≤ lvl ∧ lvl < a.levels ∧ addr ∈ a.free_blocks lvl ∧
      a₁ = { a with
        free_blocks := splitDown a.min_size addr (getLevel a R) lvl
          (Function.update a.free_blocks lvl ((a.free_blocks lvl).erase addr))
        allocated_blocks :=
          insertKey addr (a.min_size * 2 ^ getLevel a R) a.allocated_blocks } := by
  rcases hscan : scanLevel a.free_blocks (getLevel a R) (a.levels - getLevel a R)
    with _ | lvl
  · simp only [allocate, hscan] at h
    exact Option.noConfusion (Prod.mk.injEq _ _ _ _ ▸ h).1
  · obtain ⟨h1, h2, h3⟩ := scanLevel_some _ _ _ hscan
    simp only [allocate, hscan, popMin_eq h3] at h
    rw [Prod.mk.injEq] at h
    obtain ⟨ha, hs⟩ := h
    have haddr : (a.free_blocks lvl).min' h3 = addr := by injection ha
    refine ⟨lvl, h1, by omega, ?_, ?_⟩
    · rw [← haddr]
      exact Finset.min'_mem _ h3
    · rw [← hs, haddr]

/-- A `deallocate` of an unknown address fails and leaves the state
untouched. -/
theorem deallocate_not_found {a : Allocator} {addr : Nat}
    (h : lookupKey addr a.allocated_blocks = none) :
    deallocate a addr = (false, a) := by
  simp only [deallocate, h]

/-- Structure of a successful `deallocate`: the entry is removed, the
coalescing loop runs from the entry's level, and the resulting block is
inserted at the final level. -/
theorem deallocate_some_spec {a : Allocator} {addr size : Nat}
    (h : lookupKey addr a.allocated_blocks = some size) :
    deallocate a addr = (true,
      { a with
        allocated_blocks := eraseKey addr a.allocated_blocks
        free_blocks :=
          Function.update
            (coalesce a.min_size a.levels a.levels addr
              (getLevel a (size : Int)) a.free_blocks).2.2
            (coalesce a.min_size a.levels a.levels addr
              (getLevel a (size : Int)) a.free_blocks).2.1
            (insert
              (coalesce a.min_size a.levels a.levels addr
                (getLevel a (size : Int)) a.free_blocks).1
              ((coalesce a.min_size a.levels a.levels addr
                (getLevel a (size : Int)) a.free_blocks).2.2
                ((coalesce a.min_size a.levels a.levels addr
                  (getLevel a (size : Int)) a.free_blocks).2.1))) }) := by
  simp only [deallocate, h]

/-! ### Invariant preservation -/

/-- Popping an address out of its free set yields the pending-block
invariant. -/
theorem pend_of_pop {a : Allocator} (hI : Inv a) {lvl : Nat} (hlvl : lvl < a.levels)
    {addr : Nat} (haddr : addr ∈ a.free_blocks lvl) :
    PendInv a.min_size a.levels a.total_size a.allocated_blocks
      (Function.update a.free_blocks lvl ((a.free_blocks lvl).erase addr)) addr lvl := by
  obtain ⟨⟨hS, hL, hT⟩, hfree, hag, hpw, hnb, htile⟩ := hI
  obtain ⟨hdvd, hbound⟩ := hfree lvl hlvl addr haddr
  refine ⟨hS, hlvl, hdvd, hbound, ?_, ?_, ?_⟩
  · intro l hl y hy
    by_cases hlc : l = lvl
    · subst hlc
      rw [Function.update_same] at hy
      exact hfree l hl y (Finset.mem_of_mem_erase hy)
    · rw [Function.update_noteq hlc] at hy
      exact hfree l hl y hy
  · intro l hl y hy
    by_cases hlc : l = lvl
    · subst hlc
      rw [Function.update_same] at hy ⊢
      intro hcon
      exact hnb l hl y (Finset.mem_of_mem_erase hy) (Finset.mem_of_mem_erase hcon)
    · rw [Function.update_noteq hlc] at hy ⊢
      exact hnb l hl y hy
  · intro x hx
    have htx := htile x hx
    have hup := freeCount_update a.min_size a.levels x lvl a.free_blocks
      ((a.free_blocks lvl).erase addr) hlvl
    have her := card_filter_erase addr (a.free_blocks lvl)
      (fun ad => ad ≤ x ∧ x < ad + a.min_size * 2 ^ lvl) haddr
    simp only [] at her
    unfold cover at htx
    omega

/-- `allocate` preserves the data-model invariants. -/
theorem allocate_inv {a : Allocator} (hI : Inv a) (R : Int) : Inv (allocate a R).2 := by
  rcases hres : allocate a R with ⟨r, a₁⟩
  rcases r with _ | addr
  · have := allocate_none_state (by rw [hres])
    rw [hres] at this
    have ha : a₁ = a := congrArg Prod.snd this
    rw [ha]
    exact hI
  · obtain ⟨lvl, hlev, hlvl, hmem, hstate⟩ := allocate_some_spec hres
    have hP0 := pend_of_pop hI hlvl hmem
    have hP := splitDown_pend lvl _ hlev hP0
    obtain ⟨⟨hS, hL, hT⟩, hfree, hag, hpw, hnb, htile⟩ := hI
    have hpos : ∀ p ∈ a.allocated_blocks, 1 ≤ p.2 := by
      intro p hp
      obtain ⟨k, hk, hsz, _, _⟩ := hag p hp
      rw [hsz]
      exact sz_pos hS k
    have hkey := pend_not_key hP hpos
    obtain ⟨_, hplvl, hdvd, hbound, hfree1, hnb1, htile1⟩ := hP
    rw [hstate]
    refine ⟨⟨hS, hL, hT⟩, ?_, ?_, ?_, ?_, ?_⟩
    · exact hfree1
    · intro p hp
      rcases mem_insertKey _ _ _ _ hp with hh | hh
      · refine ⟨getLevel a R, hplvl, ?_, ?_, ?_⟩
        · rw [hh]
        · rw [hh]
          exact hdvd
        · rw [hh]
          exact hbound
      · exact hag p hh
    · exact insertKey_pairwise _ _ _ hpw
    · exact hnb1
    · intro x hx
      unfold cover
      have hic := allocCount_insertKey addr (a.min_size * 2 ^ getLevel a R) x
        a.allocated_blocks hkey
      have := htile1 x hx
      simp only [] at hic ⊢
      omega

/-- `deallocate` preserves the data-model invariants. -/
theorem deallocate_inv {a : Allocator} (hI : Inv a) (addr : Nat) :
    Inv (deallocate a addr).2 := by
  rcases hlk : lookupKey addr a.allocated_blocks with _ | size
  · rw [deallocate_not_found hlk]
    exact hI
  · rw [deallocate_some_spec hlk]
    have hmem := lookupKey_mem _ _ _ hlk
    obtain ⟨⟨hS, hL, hT⟩, hfree, hag, hpw, hnb, htile⟩ := hI
    obtain ⟨k, hk, hsz, hdvd, hbound⟩ := hag (addr, size) hmem
    simp only [] at hsz hdvd hbound
    have hlevel : getLevel a (size : Int) = k := by
      rw [hsz]
      exact_mod_cast getLevel_pow a k hS
    have hnd : (a.allocated_blocks.map Prod.fst).Nodup := keys_nodup_of_pairwise hpw
    have hP0 : PendInv a.min_size a.levels a.total_size
        (eraseKey addr a.allocated_blocks) a.free_blocks addr k := by
      refine ⟨hS, hk, by rw [← hsz]; exact hdvd, by rw [← hsz]; exact hbound, hfree, hnb, ?_⟩
      intro x hx
      have htx := htile x hx
      have her := allocCount_eraseKey addr size x a.allocated_blocks hnd hmem
      unfold cover at htx
      rw [← hsz]
      omega
    rw [hlevel]
    obtain ⟨hP, hstop⟩ := coalesce_pend a.levels addr k a.free_blocks hP0 (by omega)
    obtain ⟨_, hclvl, hcdvd, hcbound, hfree1, hnb1, htile1⟩ := hP
    have hstop2 : a.levels - 1
          ≤ (coalesce a.min_size a.levels a.levels addr k a.free_blocks).2.1
        ∨ ((coalesce a.min_size a.levels a.levels addr k a.free_blocks).1
            ^^^ (a.min_size * 2 ^ (coalesce a.min_size a.levels a.levels addr k a.free_blocks).2.1))
          ∉ (coalesce a.min_size a.levels a.levels addr k a.free_blocks).2.2
              ((coalesce a.min_size a.levels a.levels addr k a.free_blocks).2.1) := hstop
    set cur := (coalesce a.min_size a.levels a.levels addr k a.free_blocks).1 with hcur
    set clvl := (coalesce a.min_size a.levels a.levels addr k a.free_blocks).2.1 with hclvl2
    set free1 := (coalesce a.min_size a.levels a.levels addr k a.free_blocks).2.2 with hfree12
    have hcurnot : cur ∉ free1 clvl :=
      pend_not_mem ⟨hS, hclvl, hcdvd, hcbound, hfree1, hnb1, htile1⟩ hclvl
    have hszpos : 1 ≤ a.min_size * 2 ^ clvl := sz_pos hS clvl
    refine ⟨⟨hS, hL, hT⟩, ?_, ?_, ?_, ?_, ?_⟩
    · -- free sets aligned and bounded after the final insert
      intro l hl y hy
      simp only [] at hl hy ⊢
      by_cases hlc : l = clvl
      · subst hlc
        rw [Function.update_same] at hy
        rcases Finset.mem_insert.mp hy with hh | hh
        · subst hh
          exact ⟨hcdvd, hcbound⟩
        · exact hfree1 clvl hl y hh
      · rw [Function.update_noteq hlc] at hy
        exact hfree1 l hl y hy
    · -- allocated map still good
      intro p hp
      simp only [] at hp ⊢
      exact hag p (mem_eraseKey _ _ _ hp)
    · simp only []
      exact List.Pairwise.sublist (eraseKey_sublist addr a.allocated_blocks) hpw
    · -- no same-level buddy pairs after the final insert
      intro l hl y hy
      simp only [] at hl hy ⊢
      by_cases hlc : l = clvl
      · subst hlc
        rw [Function.update_same] at hy ⊢
        have hstop3 : (cur ^^^ (a.min_size * 2 ^ clvl)) ∉ free1 clvl := by
          rcases hstop2 with hh | hh
          · omega
          · exact hh
        rcases Finset.mem_insert.mp hy with hh | hh
        · subst hh
          intro hcon
          rcases Finset.mem_insert.mp hcon with hc | hc
          · have h0 : a.min_size * 2 ^ clvl = 0 := by
              have hback := Nat.xor_cancel_left cur (a.min_size * 2 ^ clvl)
              rw [hc, Nat.xor_self] at hback
              omega
            omega
          · exact hstop3 hc
        · intro hcon
          rcases Finset.mem_insert.mp hcon with hc | hc
          · apply hstop3
            have hyc : y = cur ^^^ (a.min_size * 2 ^ clvl) := by
              have hback := Nat.xor_cancel_right (a.min_size * 2 ^ clvl) y
              rw [hc] at hback
              exact hback.symm
            rw [← hyc]
            exact hh
          · exact hnb1 clvl hl y hh hc
      · rw [Function.update_noteq hlc] at hy ⊢
        exact hnb1 l hl y hy
    · -- tiling
      intro x hx
      simp only [] at hx ⊢
      unfold cover
      simp only []
      have htx := htile1 x hx
      have hup := freeCount_update a.min_size a.levels x clvl free1
        (insert cur (free1 clvl)) hclvl
      have hin := card_filter_insert cur (free1 clvl)
        (fun ad => ad ≤ x ∧ x < ad + a.min_size * 2 ^ clvl) hcurnot
      simp only [] at hin
      omega

/-! ### Construction and whole-run facts -/

/-- Constructing with `total = S · 2^n`, `min = S ≥ 1` succeeds and produces
`n + 1` levels with a single free block at address `0` on the top level. -/
theorem mkAllocator_pow (S n : Nat) (hS : 1 ≤ S) :
    mkAllocator ((S * 2 ^ n : Nat) : Int) (S : Int) = some (initAllocator S n) := by
  have hfd0 : ((S * 2 ^ n / S : Nat) : Int) = ((S * 2 ^ n : Nat) : Int).fdiv (S : Int) :=
    Int.ofNat_fdiv (S * 2 ^ n) S
  have hfd : ((S * 2 ^ n : Nat) : Int).fdiv (S : Int) = ((2 ^ n : Nat) : Int) := by
    rw [← hfd0, Nat.mul_div_cancel_left _ hS]
  have hcond : 1 ≤ (S : Int) ∧ 1 ≤ ((S * 2 ^ n : Nat) : Int).fdiv (S : Int) := by
    constructor
    · exact_mod_cast hS
    · rw [hfd]
      exact_mod_cast Nat.one_le_two_pow
  have h1 : ((S * 2 ^ n : Nat) : Int).toNat = S * 2 ^ n := Int.toNat_natCast _
  have h2 : ((S : Nat) : Int).toNat = S := Int.toNat_natCast _
  unfold mkAllocator
  rw [if_pos hcond, h1, h2, Nat.mul_div_cancel_left _ hS, log2F_pow]
  rfl

/-- A validly configured fresh allocator satisfies the data-model
invariants. -/
theorem inv_initAllocator (S n : Nat) (hS : 1 ≤ S) : Inv (initAllocator S n) := by
  have hszpos : 1 ≤ S * 2 ^ n := sz_pos hS n
  unfold Inv initAllocator cover freeCount allocCount
  simp only []
  refine ⟨⟨hS, by omega, rfl⟩, ?_, ?_, ?_, ?_, ?_⟩
  · intro l hl ad had
    by_cases hln : l = n
    · rw [if_pos hln] at had
      rw [Finset.mem_singleton] at had
      subst had
      subst hln
      exact ⟨dvd_zero _, by omega⟩
    · rw [if_neg hln] at had
      exact absurd had (Finset.not_mem_empty ad)
  · intro p hp
    exact absurd hp (List.not_mem_nil p)
  · exact List.Pairwise.nil
  · intro l hl ad had
    have hln : ¬ l = n := by omega
    rw [if_neg hln] at had
    exact absurd had (Finset.not_mem_empty ad)
  · intro x hx
    rw [Finset.sum_eq_single_of_mem n (Finset.mem_range.mpr (by omega))]
    · rw [if_pos rfl, Finset.filter_singleton, if_pos (by omega), Finset.card_singleton]
    · intro b _ hbn
      rw [if_neg hbn, Finset.filter_empty, Finset.card_empty]

/-- Every public call preserves the configuration fields. -/
theorem step_fields (a : Allocator) (op : Op) :
    (step a op).total_size = a.total_size ∧ (step a op).min_size = a.min_size
      ∧ (step a op).levels = a.levels := by
  cases op with
  | alloc R =>
    show (allocate a R).2.total_size = a.total_size
      ∧ (allocate a R).2.min_size = a.min_size ∧ (allocate a R).2.levels = a.levels
    rcases hres : allocate a R with ⟨r, a₁⟩
    rcases r with _ | addr
    · have := allocate_none_state (by rw [hres])
      rw [hres] at this
      have ha : a₁ = a := congrArg Prod.snd this
      simp only []
      rw [ha]
      exact ⟨rfl, rfl, rfl⟩
    · obtain ⟨lvl, _, _, _, hstate⟩ := allocate_some_spec hres
      simp only []
      rw [hstate]
      exact ⟨rfl, rfl, rfl⟩
  | free ad =>
    show (deallocate a ad).2.total_size = a.total_size
      ∧ (deallocate a ad).2.min_size = a.min_size ∧ (deallocate a ad).2.levels = a.levels
    rcases hlk : lookupKey ad a.allocated_blocks with _ | size
    · rw [deallocate_not_found hlk]
      exact ⟨rfl, rfl, rfl⟩
    · rw [deallocate_some_spec hlk]
      exact ⟨rfl, rfl, rfl⟩

theorem step_inv {a : Allocator} (hI : Inv a) (op : Op) : Inv (step a op) := by
  cases op with
  | alloc R => exact allocate_inv hI R
  | free ad => exact deallocate_inv hI ad

/-- Any sequence of public calls preserves the invariants and the
configuration fields. -/
theorem run_inv {a : Allocator} (hI : Inv a) (ops : List Op) :
    Inv (run a ops)
      ∧ (run a ops).total_size = a.total_size
      ∧ (run a ops).min_size = a.min_size
      ∧ (run a ops).levels = a.levels := by
  induction ops generalizing a with
  | nil => exact ⟨hI, rfl, rfl, rfl⟩
  | cons op ops ih =>
    have hrun : run a (op :: ops) = run (step a op) ops := rfl
    obtain ⟨h1, h2, h3⟩ := step_fields a op
    obtain ⟨i1, i2, i3, i4⟩ := ih (step_inv hI op)
    rw [hrun]
    exact ⟨i1, by omega, by omega, by omega⟩

/-! ### Conservation of space -/

theorem sum_ind_eq_card_filter (s : Finset Nat) (p : Nat → Prop) [DecidablePred p] :
    ∑ x in s, (if p x then 1 else 0) = (s.filter p).card := by
  rw [Finset.sum_ite, Finset.sum_const, Finset.sum_const_zero, add_zero, smul_eq_mul,
    mul_one]

theorem sum_indicator_block (T k v : Nat) (h : k + v ≤ T) :
    ∑ x in Finset.range T, (if k ≤ x ∧ x < k + v then 1 else 0) = v := by
  rw [sum_ind_eq_card_filter]
  have hset : (Finset.range T).filter (fun x => k ≤ x ∧ x < k + v) = Finset.Ico k (k + v) := by
    ext y
    rw [Finset.mem_filter, Finset.mem_range, Finset.mem_Ico]
    omega
  rw [hset, Nat.card_Ico]
  omega

theorem sum_allocCount (T : Nat) :
    ∀ l : List (Nat × Nat), (∀ p ∈ l, p.1 + p.2 ≤ T) →
      ∑ x in Finset.range T, allocCount l x = allocSizeSum l := by
  intro l
  induction l with
  | nil => intro _; simp [allocCount, allocSizeSum]
  | cons p rest ih =>
    intro hb
    have hbp := hb p (List.mem_cons_self p rest)
    have hbr : ∀ q ∈ rest, q.1 + q.2 ≤ T := fun q hq => hb q (List.mem_cons_of_mem p hq)
    simp only [allocCount]
    rw [Finset.sum_add_distrib, sum_indicator_block T p.1 p.2 hbp, ih hbr]
    simp [allocSizeSum]

theorem sum_freeCount (T S L : Nat) (free : Nat → Finset Nat)
    (hb : ∀ l < L, ∀ ad ∈ free l, ad + S * 2 ^ l ≤ T) :
    ∑ x in Finset.range T, freeCount S L free x
      = ∑ l in Finset.range L, (free l).card * (S * 2 ^ l) := by
  unfold freeCount
  rw [Finset.sum_comm]
  apply Finset.sum_congr rfl
  intro l hl
  rw [Finset.mem_range] at hl
  have hcf : ∀ x, ((free l).filter (fun ad => ad ≤ x ∧ x < ad + S * 2 ^ l)).card
      = ∑ ad in free l, (if ad ≤ x ∧ x < ad + S * 2 ^ l then 1 else 0) := by
    intro x
    rw [sum_ind_eq_card_filter]
  calc ∑ x in Finset.range T, ((free l).filter (fun ad => ad ≤ x ∧ x < ad + S * 2 ^ l)).card
      = ∑ x in Finset.range T, ∑ ad in free l,
          (if ad ≤ x ∧ x < ad + S * 2 ^ l then 1 else 0) := Finset.sum_congr rfl (fun x _ => hcf x)
    _ = ∑ ad in free l, ∑ x in Finset.range T,
          (if ad ≤ x ∧ x < ad + S * 2 ^ l then 1 else 0) := Finset.sum_comm
    _ = ∑ ad in free l, S * 2 ^ l := by
          apply Finset.sum_congr rfl
          intro ad had
          exact sum_indicator_block T ad (S * 2 ^ l) (hb l hl ad had)
    _ = (free l).card * (S * 2 ^ l) := by
          rw [Finset.sum_const, smul_eq_mul]

/-- Conservation: under the invariants, the free sizes plus the allocated
sizes exactly exhaust the total size. -/
theorem conservation_of_inv {a : Allocator} (hI : Inv a) :
    freeSizeSum a + allocSizeSum a.allocated_blocks = a.total_size := by
  obtain ⟨⟨hS, hL, hT⟩, hfree, hag, hpw, hnb, htile⟩ := hI
  have hcov : ∑ x in Finset.range a.total_size, cover a x = a.total_size := by
    rw [Finset.sum_congr rfl (fun x hx => htile x (Finset.mem_range.mp hx)),
      Finset.sum_const, smul_eq_mul, Finset.card_range, mul_one]
  unfold cover at hcov
  rw [Finset.sum_add_distrib] at hcov
  rw [sum_allocCount a.total_size a.allocated_blocks
    (fun p hp => (hag p hp).choose_spec.2.2.2) ] at hcov
  rw [sum_freeCount a.total_size a.min_size a.levels a.free_blocks
    (fun l hl ad had => (hfree l hl ad had).2)] at hcov
  unfold freeSizeSum
  omega

/-! ### Round trip: deallocation immediately undoes an allocation -/

/-- Closed form of the split loop: it adds the upper halves
`addr + S·2^j` for `level ≤ j < lvl` and touches nothing else. -/
theorem splitDown_char (S addr level : Nat) :
    ∀ lvl (free : Nat → Finset Nat), level ≤ lvl →
      splitDown S addr level lvl free
        = fun j => if level ≤ j ∧ j < lvl then insert (addr + S * 2 ^ j) (free j)
            else free j := by
  intro lvl
  induction lvl with
  | zero =>
    intro free hle
    funext j
    rw [if_neg (by omega)]
    rfl
  | succ lvl ih =>
    intro free hle
    by_cases hlt : level < lvl + 1
    · have hrec : splitDown S addr level (lvl + 1) free
          = splitDown S addr level lvl
              (Function.update free lvl (insert (addr + S * 2 ^ lvl) (free lvl))) := by
        simp only [splitDown]
        rw [if_pos hlt]
      rw [hrec, ih _ (by omega)]
      funext j
      by_cases hj : level ≤ j ∧ j < lvl
      · rw [if_pos hj, if_pos (by omega), Function.update_noteq (by omega)]
      · rw [if_neg hj]
        by_cases hjl : j = lvl
        · subst hjl
          rw [Function.update_same, if_pos (by omega)]
        · rw [Function.update_noteq hjl, if_neg (by omega)]
    · have hle2 : level = lvl + 1 := by omega
      have hrec : splitDown S addr level (lvl + 1) free = free := by
        simp only [splitDown]
        rw [if_neg hlt]
      rw [hrec]
      funext j
      rw [if_neg (by omega)]

/-- For a power-of-two minimum block size, the coalescing loop started on a
freshly split block retraces the split exactly: it re-merges the upper halves
`addr + S·2^j` for `j = level, …, lvl - 1` and stops at `lvl`. -/
theorem coalesce_undo {S L p level lvl addr : Nat} {free : Nat → Finset Nat}
    (hSp : S = 2 ^ p) (hlvlL : lvl < L) (hdvd : (S * 2 ^ lvl) ∣ addr)
    (hnb : lvl + 1 < L → (addr ^^^ (S * 2 ^ lvl)) ∉ free lvl)
    (hnotin : ∀ j, level ≤ j → j < lvl → (addr + S * 2 ^ j) ∉ free j) :
    ∀ fuel m, level ≤ m → m ≤ lvl → lvl - m ≤ fuel →
      coalesce S L fuel addr m
          (fun j => if m ≤ j ∧ j < lvl then insert (addr + S * 2 ^ j) (free j)
            else Function.update free lvl ((free lvl).erase addr) j)
        = (addr, lvl,
            fun j => Function.update free lvl ((free lvl).erase addr) j) := by
  have hS : 1 ≤ S := by rw [hSp]; exact Nat.one_le_two_pow
  intro fuel
  induction fuel with
  | zero =>
    intro m hm1 hm2 hf
    have hmeq : m = lvl := by omega
    subst hmeq
    have hfun : (fun j => if m ≤ j ∧ j < m then insert (addr + S * 2 ^ j) (free j)
          else Function.update free m ((free m).erase addr) j)
        = fun j => Function.update free m ((free m).erase addr) j := by
      funext j
      rw [if_neg (by omega)]
    rw [hfun]
    rfl
  | succ fuel ih =>
    intro m hm1 hm2 hf
    rcases Nat.eq_or_lt_of_le hm2 with hmeq | hmlt
    · -- at the top of the retrace: the loop stops
      subst hmeq
      have hfun : (fun j => if m ≤ j ∧ j < m then insert (addr + S * 2 ^ j) (free j)
            else Function.update free m ((free m).erase addr) j)
          = fun j => Function.update free m ((free m).erase addr) j := by
        funext j
        rw [if_neg (by omega)]
      rw [hfun]
      apply coalesce_stop
      by_cases htop : m < L - 1
      · right
        have hnb2 := hnb (by omega)
        intro hcon
        rw [Function.update_same] at hcon
        exact hnb2 (Finset.mem_of_mem_erase hcon)
      · left
        omega
    · -- one merge step upward
      have hmL : m < L - 1 := by omega
      have hdvd1 : (2 : Nat) ^ (p + m + 1) ∣ addr := by
        have hd1 : (2 : Nat) ^ (p + m + 1) ∣ 2 ^ (p + lvl) := pow_dvd_pow 2 (by omega)
        have hd2 : (2 : Nat) ^ (p + lvl) ∣ addr := by
          rw [hSp, ← pow_add] at hdvd
          exact hdvd
        exact dvd_trans hd1 hd2
      have hxor : addr ^^^ (S * 2 ^ m) = addr + S * 2 ^ m := by
        have := xor_pow_eq_add (q := p + m) hdvd1
        rw [hSp, ← pow_add]
        exact this
      have hmem : (addr ^^^ (S * 2 ^ m))
          ∈ (fun j => if m ≤ j ∧ j < lvl then insert (addr + S * 2 ^ j) (free j)
              else Function.update free lvl ((free lvl).erase addr) j) m := by
        simp only []
        rw [if_pos ⟨le_rfl, hmlt⟩, hxor]
        exact Finset.mem_insert_self _ _
      have hrec : coalesce S L (fuel + 1) addr m
            (fun j => if m ≤ j ∧ j < lvl then insert (addr + S * 2 ^ j) (free j)
              else Function.update free lvl ((free lvl).erase addr) j)
          = coalesce S L fuel (min addr (addr ^^^ (S * 2 ^ m))) (m + 1)
              (Function.update
                (fun j => if m ≤ j ∧ j < lvl then insert (addr + S * 2 ^ j) (free j)
                  else Function.update free lvl ((free lvl).erase addr) j) m
                (((fun j => if m ≤ j ∧ j < lvl then insert (addr + S * 2 ^ j) (free j)
                  else Function.update free lvl ((free lvl).erase addr) j) m).erase
                  (addr ^^^ (S * 2 ^ m)))) := by
        simp only [coalesce]
        rw [if_pos hmL, if_pos hmem]
      rw [hrec]
      have hmin : min addr (addr ^^^ (S * 2 ^ m)) = addr := by
        rw [hxor]
        exact min_eq_left (by omega)
      have hupd : Function.update
            (fun j => if m ≤ j ∧ j < lvl then insert (addr + S * 2 ^ j) (free j)
              else Function.update free lvl ((free lvl).erase addr) j) m
            (((fun j => if m ≤ j ∧ j < lvl then insert (addr + S * 2 ^ j) (free j)
              else Function.update free lvl ((free lvl).erase addr) j) m).erase
              (addr ^^^ (S * 2 ^ m)))
          = fun j => if m + 1 ≤ j ∧ j < lvl then insert (addr + S * 2 ^ j) (free j)
              else Function.update free lvl ((free lvl).erase addr) j := by
        funext j
        by_cases hjm : j = m
        · rw [hjm, Function.update_same]
          simp only []
          rw [if_pos ⟨le_rfl, hmlt⟩, hxor,
            Finset.erase_insert (hnotin m hm1 hmlt), if_neg (by omega),
            Function.update_noteq (by omega)]
        · rw [Function.update_noteq hjm]
          by_cases hj : m ≤ j ∧ j < lvl
          · by_cases hj1 : m + 1 ≤ j ∧ j < lvl
            · rw [if_pos hj, if_pos hj1]
            · omega
          · rw [if_neg hj, if_neg (by omega)]
      rw [hmin, hupd]
      exact ih (m + 1) (by omega) (by omega) (by omega)

/-- For a power-of-two minimum block size, deallocating a freshly allocated
address restores the allocator state exactly. -/
theorem deallocate_undoes_allocate {a : Allocator} {R : Int} {addr : Nat} {a₁ : Allocator}
    {p : Nat} (hI : Inv a) (hp : a.min_size = 2 ^ p)
    (h : allocate a R = (some addr, a₁)) :
    deallocate a₁ addr = (true, a) := by
  obtain ⟨lvl, hlev, hlvl, hmem, hstate⟩ := allocate_some_spec h
  have hP0 := pend_of_pop hI hlvl hmem
  obtain ⟨⟨hS, hL, hT⟩, hfree, hag, hpw, hnb, htile⟩ := hI
  have hdvd : (a.min_size * 2 ^ lvl) ∣ addr := (hfree lvl hlvl addr hmem).1
  have hpos : ∀ q ∈ a.allocated_blocks, 1 ≤ q.2 := by
    intro q hq
    obtain ⟨k, hk, hszq, _, _⟩ := hag q hq
    rw [hszq]
    exact sz_pos hS k
  have hkey : addr ∉ a.allocated_blocks.map Prod.fst := pend_not_key hP0 hpos
  have hnotin : ∀ j, getLevel a R ≤ j → j < lvl →
      (addr + a.min_size * 2 ^ j) ∉ a.free_blocks j := by
    intro j hj1 hj2 hmem2
    have hjL : j < a.levels := by omega
    have hjlvl : ¬ j = lvl := by omega
    have h2 : a.min_size * 2 ^ (j + 1) ≤ a.min_size * 2 ^ lvl :=
      Nat.mul_le_mul_left _ (Nat.pow_le_pow_right (by omega) (by omega))
    have h2b : a.min_size * 2 ^ (j + 1) = 2 * (a.min_size * 2 ^ j) := by ring
    have hszj : 1 ≤ a.min_size * 2 ^ j := sz_pos hS j
    refine pend_no_overlap hP0 hjL
      (show addr + a.min_size * 2 ^ j ∈
          Function.update a.free_blocks lvl ((a.free_blocks lvl).erase addr) j by
        rw [Function.update_noteq hjlvl]
        exact hmem2)
      ⟨le_rfl, by omega⟩ ⟨by omega, by omega⟩
  have hmin_eq : a₁.min_size = a.min_size := by rw [hstate]
  have hlev_eq : a₁.levels = a.levels := by rw [hstate]
  have halloc_eq : a₁.allocated_blocks
      = insertKey addr (a.min_size * 2 ^ getLevel a R) a.allocated_blocks := by
    rw [hstate]
  have hfree_eq : a₁.free_blocks
      = fun j => if getLevel a R ≤ j ∧ j < lvl
          then insert (addr + a.min_size * 2 ^ j) (a.free_blocks j)
          else Function.update a.free_blocks lvl ((a.free_blocks lvl).erase addr) j := by
    rw [hstate]
    show splitDown a.min_size addr (getLevel a R) lvl
        (Function.update a.free_blocks lvl ((a.free_blocks lvl).erase addr)) = _
    rw [splitDown_char _ _ _ lvl _ hlev]
    funext j
    by_cases hj : getLevel a R ≤ j ∧ j < lvl
    · rw [if_pos hj, if_pos hj, Function.update_noteq (by omega)]
    · rw [if_neg hj, if_neg hj]
  have hlook : lookupKey addr a₁.allocated_blocks
      = some (a.min_size * 2 ^ getLevel a R) := by
    rw [halloc_eq]
    exact lookupKey_insertKey_self _ _ _
  have hglevel : getLevel a₁ ((a.min_size * 2 ^ getLevel a R : Nat) : Int)
      = getLevel a R := by
    have h1 := getLevel_pow a₁ (getLevel a R) (by rw [hmin_eq]; exact hS)
    rw [hmin_eq] at h1
    exact h1
  have hnb2 : lvl + 1 < a.levels → (addr ^^^ (a.min_size * 2 ^ lvl)) ∉ a.free_blocks lvl := by
    intro hlt
    exact hnb lvl (by omega) addr hmem
  have hco : coalesce a₁.min_size a₁.levels a₁.levels addr
        (getLevel a₁ ((a.min_size * 2 ^ getLevel a R : Nat) : Int)) a₁.free_blocks
      = (addr, lvl,
          fun j => Function.update a.free_blocks lvl ((a.free_blocks lvl).erase addr) j) := by
    rw [hmin_eq, hlev_eq, hglevel, hfree_eq]
    exact coalesce_undo hp hlvl hdvd hnb2 hnotin a.levels (getLevel a R) le_rfl hlev
      (by omega)
  have hfinal : Function.update
        (fun j => Function.update a.free_blocks lvl ((a.free_blocks lvl).erase addr) j) lvl
        (insert addr
          ((fun j => Function.update a.free_blocks lvl ((a.free_blocks lvl).erase addr) j) lvl))
      = a.free_blocks := by
    funext j
    by_cases hj : j = lvl
    · rw [hj, Function.update_same]
      show insert addr
          (Function.update a.free_blocks lvl ((a.free_blocks lvl).erase addr) lvl)
        = a.free_blocks lvl
      rw [Function.update_same, Finset.insert_erase hmem]
    · rw [Function.update_noteq hj]
      show Function.update a.free_blocks lvl ((a.free_blocks lvl).erase addr) j
        = a.free_blocks j
      rw [Function.update_noteq hj]
  have halloc_final : eraseKey addr a₁.allocated_blocks = a.allocated_blocks := by
    rw [halloc_eq]
    exact eraseKey_insertKey _ _ _ hkey
  rw [deallocate_some_spec hlook, hco]
  rw [hfinal, halloc_final, hstate]

/-! ### The memory-map view -/

theorem mem_insertAsc (c a : Nat) : ∀ l : List Nat, c ∈ insertAsc a l ↔ c = a ∨ c ∈ l := by
  intro l
  induction l with
  | nil => simp [insertAsc]
  | cons b l ih =>
    simp only [insertAsc]
    by_cases hab : a ≤ b
    · rw [if_pos hab]
      simp [List.mem_cons]
    · rw [if_neg hab]
      simp only [List.mem_cons, ih]
      tauto

theorem insertAsc_sorted (a : Nat) :
    ∀ l : List Nat, List.Sorted (fun x y => x ≤ y) l →
      List.Sorted (fun x y => x ≤ y) (insertAsc a l) := by
  intro l
  induction l with
  | nil => intro _; simp [insertAsc]
  | cons b l ih =>
    intro hs
    rw [List.sorted_cons] at hs
    obtain ⟨hb, hl⟩ := hs
    simp only [insertAsc]
    by_cases hab : a ≤ b
    · rw [if_pos hab, List.sorted_cons]
      constructor
      · intro c hc
        rcases List.mem_cons.mp hc with hh | hh
        · omega
        · have := hb c hh
          omega
      · rw [List.sorted_cons]
        exact ⟨hb, hl⟩
    · rw [if_neg hab, List.sorted_cons]
      constructor
      · intro c hc
        rcases (mem_insertAsc c a l).mp hc with hh | hh
        · omega
        · exact hb c hh
      · exact ih hl

theorem insertAsc_countP (p : Nat → Bool) (a : Nat) :
    ∀ l : List Nat, (insertAsc a l).countP p = l.countP p + (if p a then 1 else 0) := by
  intro l
  induction l with
  | nil => simp [insertAsc, List.countP_cons, List.countP_nil]
  | cons b l ih =>
    simp only [insertAsc]
    by_cases hab : a ≤ b
    · rw [if_pos hab]
      simp only [List.countP_cons]
    · rw [if_neg hab, List.countP_cons, ih, List.countP_cons]
      ring

theorem sortAsc_countP (s : Finset Nat) (q : Nat → Prop) [DecidablePred q] :
    (sortAsc s).countP (fun a => decide (q a)) = (s.filter q).card := by
  rw [Finset.card_filter]
  show (Multiset.foldr insertAsc [] s.1).countP (fun a => decide (q a))
    = Multiset.sum (Multiset.map (fun a => if q a then 1 else 0) s.1)
  induction s.1 using Multiset.induction_on with
  | empty => simp
  | cons a m ih =>
    rw [Multiset.foldr_cons, insertAsc_countP, ih, Multiset.map_cons, Multiset.sum_cons]
    by_cases hq : q a
    · rw [if_pos hq, if_pos (by simp [hq])]
      ring
    · rw [if_neg hq, if_neg (by simp [hq])]
      ring

theorem sortAsc_sorted (s : Finset Nat) :
    List.Sorted (fun x y => x ≤ y) (sortAsc s) := by
  show List.Sorted (fun x y => x ≤ y) (Multiset.foldr insertAsc [] s.1)
  induction s.1 using Multiset.induction_on with
  | empty => simp
  | cons a m ih =>
    rw [Multiset.foldr_cons]
    exact insertAsc_sorted a _ ih

theorem countP_flatten_range {α : Type} (p : α → Bool) (g : Nat → List α) :
    ∀ L : Nat, (((List.range L).map g).flatten).countP p
      = ∑ l in Finset.range L, (g l).countP p := by
  intro L
  induction L with
  | zero => simp
  | succ L ih =>
    rw [List.range_succ, List.map_append, List.flatten_append, List.countP_append, ih,
      Finset.sum_range_succ]
    simp

theorem countP_alloc_map (x : Nat) :
    ∀ l : List (Nat × Nat),
      ((l.map (fun q => (BlockState.Allocated, q.1, q.2))).countP
        (fun e => decide (e.2.1 ≤ x ∧ x < e.2.1 + e.2.2))) = allocCount l x := by
  intro l
  induction l with
  | nil => simp [allocCount]
  | cons q l ih =>
    rw [List.map_cons, List.countP_cons, ih]
    simp only [allocCount]
    by_cases hc : q.1 ≤ x ∧ x < q.1 + q.2
    · rw [if_pos hc, if_pos (by simpa using hc)]
      ring
    · rw [if_neg hc, if_neg (by simpa using hc)]
      ring

/-- Each point of `[0, T)` is covered by exactly one `memory_map` line. -/
theorem memory_map_cover {a : Allocator} (hI : Inv a) {x : Nat} (hx : x < a.total_size) :
    (memory_map a).countP (fun e => decide (e.2.1 ≤ x ∧ x < e.2.1 + e.2.2)) = 1 := by
  unfold memory_map
  rw [List.countP_append, countP_alloc_map, countP_flatten_range]
  have hfc : ∀ l ∈ Finset.range a.levels,
      (((sortAsc (a.free_blocks l)).map
          (fun ad => (BlockState.Free, ad, a.min_size * 2 ^ l))).countP
        (fun e => decide (e.2.1 ≤ x ∧ x < e.2.1 + e.2.2)))
      = ((a.free_blocks l).filter (fun ad => ad ≤ x ∧ x < ad + a.min_size * 2 ^ l)).card := by
    intro l _
    rw [List.countP_map]
    have hpe : ((fun e => decide (e.2.1 ≤ x ∧ x < e.2.1 + e.2.2))
          ∘ (fun ad => ((BlockState.Free, ad, a.min_size * 2 ^ l) : BlockState × Nat × Nat)))
        = fun ad => decide (ad ≤ x ∧ x < ad + a.min_size * 2 ^ l) := by
      funext ad
      rfl
    rw [hpe, sortAsc_countP]
  rw [Finset.sum_congr rfl hfc]
  have := hI.2.2.2.2.2 x hx
  unfold cover freeCount at this
  omega

/-! ### The claims -/

/-- C1: Conservation of space.  For every allocator constructed with
`total_size = S · 2^n` and `min_block_size = S`, after any sequence of
allocate/deallocate calls the free-block sizes plus the allocated sizes sum
to `S · 2^n`, every point of `[0, S·2^n)` is covered by exactly one block,
and every free or allocated block lies inside the range. -/
theorem claimC1 (S n : Nat) (a₀ : Allocator) (ops : List Op) (hS : 1 ≤ S)
    (hmk : mkAllocator ((S * 2 ^ n : Nat) : Int) ((S : Nat) : Int) = some a₀) :
    freeSizeSum (run a₀ ops) + allocSizeSum (run a₀ ops).allocated_blocks = S * 2 ^ n
    ∧ (∀ x < S * 2 ^ n, cover (run a₀ ops) x = 1)
    ∧ (∀ l < (run a₀ ops).levels, ∀ ad ∈ (run a₀ ops).free_blocks l,
        ad + S * 2 ^ l ≤ S * 2 ^ n)
    ∧ (∀ p ∈ (run a₀ ops).allocated_blocks, p.1 + p.2 ≤ S * 2 ^ n) := by
  rw [mkAllocator_pow S n hS] at hmk
  injection hmk with hmk
  subst hmk
  obtain ⟨hInv, hTot, hMin, hLev⟩ := run_inv (inv_initAllocator S n hS) ops
  have hT2 : (run (initAllocator S n) ops).total_size = S * 2 ^ n := hTot
  have hM2 : (run (initAllocator S n) ops).min_size = S := hMin
  refine ⟨?_, ?_, ?_, ?_⟩
  · have hc := conservation_of_inv hInv
    rw [hT2] at hc
    exact hc
  · intro x hx
    exact hInv.2.2.2.2.2 x (by rw [hT2]; exact hx)
  · intro l hl ad had
    have hb := (hInv.2.1 l hl ad had).2
    rw [hM2, hT2] at hb
    exact hb
  · intro p hp
    obtain ⟨k, hk, hsz, hdv, hb⟩ := hInv.2.2.1 p hp
    rw [hT2] at hb
    exact hb

theorem claimC1_witness :
    freeSizeSum (run (initAllocator 1 1) [Op.alloc 1, Op.free 0])
        + allocSizeSum (run (initAllocator 1 1) [Op.alloc 1, Op.free 0]).allocated_blocks
      = 1 * 2 ^ 1
    ∧ (∀ x < 1 * 2 ^ 1, cover (run (initAllocator 1 1) [Op.alloc 1, Op.free 0]) x = 1)
    ∧ (∀ l < (run (initAllocator 1 1) [Op.alloc 1, Op.free 0]).levels,
        ∀ ad ∈ (run (initAllocator 1 1) [Op.alloc 1, Op.free 0]).free_blocks l,
          ad + 1 * 2 ^ l ≤ 1 * 2 ^ 1)
    ∧ (∀ p ∈ (run (initAllocator 1 1) [Op.alloc 1, Op.free 0]).allocated_blocks,
        p.1 + p.2 ≤ 1 * 2 ^ 1) :=
  claimC1 1 1 (initAllocator 1 1) [Op.alloc 1, Op.free 0] (by norm_num)
    (mkAllocator_pow 1 1 (by norm_num))

/-- C2 (amended): Round-trip holds when the minimum block size is a power of
two.  On any state satisfying the data-model invariants, if `allocate`
succeeds returning `addr` then `deallocate addr` succeeds and restores the
whole state — every per-level free set and the allocated map — exactly.
(The claim as stated is refuted by `claimC2_counterexample`: with a
non-power-of-two minimum block size the XOR buddy computation does not
invert the split, so the state is not restored.) -/
theorem claimC2_amended {a : Allocator} {R : Int} {addr : Nat} {a₁ : Allocator}
    {p : Nat} (hI : Inv a) (hp : a.min_size = 2 ^ p)
    (h : allocate a R = (some addr, a₁)) :
    deallocate a₁ addr = (true, a) :=
  deallocate_undoes_allocate hI hp h

theorem claimC2_amended_witness :
    Inv (initAllocator 1 0)
    ∧ deallocate (allocate (initAllocator 1 0) 1).2 0 = (true, initAllocator 1 0) := by
  have hI : Inv (initAllocator 1 0) := by decide
  have h1 : (allocate (initAllocator 1 0) 1).1 = some 0 := by decide
  have h2 : allocate (initAllocator 1 0) 1
      = (some 0, (allocate (initAllocator 1 0) 1).2) := by
    rw [← h1]
  exact ⟨hI, @claimC2_amended (initAllocator 1 0) 1 0
    (allocate (initAllocator 1 0) 1).2 0 hI (by decide) h2⟩

/-- C2 counterexample: an allocator with `min_block_size = 3` (not a power
of two), `total_size = 12`, satisfying all data-model invariants after two
successful allocations.  A further `allocate 3` succeeds returning address
`6`, but `deallocate 6` leaves level-0 free set `{6, 9}` and level-1 free
set `∅`, where before the allocation they were `∅` and `{6}`: the
free-set state is not restored, because `6 XOR 3 = 5` is not the address of the
other half of the split block. -/
theorem claimC2_counterexample :
    Inv (run (initAllocator 3 2) [Op.alloc 3, Op.alloc 3])
    ∧ (allocate (run (initAllocator 3 2) [Op.alloc 3, Op.alloc 3]) 3).1 = some 6
    ∧ (deallocate (allocate (run (initAllocator 3 2) [Op.alloc 3, Op.alloc 3]) 3).2 6).1
        = true
    ∧ (run (initAllocator 3 2) [Op.alloc 3, Op.alloc 3]).free_blocks 0 = ∅
    ∧ (run (initAllocator 3 2) [Op.alloc 3, Op.alloc 3]).free_blocks 1 = {6}
    ∧ (deallocate (allocate (run (initAllocator 3 2) [Op.alloc 3, Op.alloc 3]) 3).2 6).2.free_blocks 0
        = {6, 9}
    ∧ (deallocate (allocate (run (initAllocator 3 2) [Op.alloc 3, Op.alloc 3]) 3).2 6).2.free_blocks 1
        = ∅ := by
  decide

/-- C3 (amended): `allocate` never rejects a request for its size.  A
non-positive request is clamped to the minimum block size, giving level
`0`, and the call fails (returning `none`, with no `InvalidSize` error in
the code) exactly when every free set is empty at every level.
(The claim as stated is refuted by `claimC3_counterexample`: `allocate (-1)`
succeeds.) -/
theorem claimC3_amended (a : Allocator) (R : Int) (hR : R ≤ 0) :
    getLevel a R = 0
    ∧ ((allocate a R).1 = none ↔ ∀ l < a.levels, a.free_blocks l = ∅) := by
  have h0 : getLevel a R = 0 := getLevel_nonpos a R hR
  refine ⟨h0, ?_⟩
  rw [allocate_fst_none_iff]
  constructor
  · intro hA l hl
    exact hA l hl (by omega)
  · intro hA l hl _
    exact hA l hl

theorem claimC3_amended_witness :
    getLevel (initAllocator 64 0) (-1) = 0
    ∧ ((allocate (initAllocator 64 0) (-1)).1 = none
        ↔ ∀ l < (initAllocator 64 0).levels, (initAllocator 64 0).free_blocks l = ∅) :=
  claimC3_amended (initAllocator 64 0) (-1) (by norm_num)

/-- C3 counterexample: on a fresh allocator with `total = min = 64` the
request `allocate (-1)` does not fail: it is clamped to one minimum block
and succeeds, returning address `0` and recording `(0, 64)` in the
allocated map.  No `InvalidSize` rejection exists in the code. -/
theorem claimC3_counterexample :
    mkAllocator ((64 * 2 ^ 0 : Nat) : Int) ((64 : Nat) : Int) = some (initAllocator 64 0)
    ∧ (allocate (initAllocator 64 0) (-1)).1 = some 0
    ∧ (allocate (initAllocator 64 0) (-1)).2.allocated_blocks = [(0, 64)] :=
  ⟨mkAllocator_pow 64 0 (by norm_num), by decide, by decide⟩

/-- C4 (amended): the constructor performs no validation.  For a positive
minimum block size, construction fails exactly when `⌊total/min⌋ ≤ 0`
(so `min > total` or `total ≤ 0`); any other pair is accepted — including a
`total` that is not `min · 2^n` — with `levels = ⌊log2 ⌊total/min⌋⌋ + 1`.
When `total = S · 2^n` the result is the canonical fresh allocator with one
free block at address `0` on the top level.
(The claim as stated is refuted by `claimC4_counterexample`: `(96, 64)` is
accepted although `96` is not `64 · 2^n`.) -/
theorem claimC4_amended (t m : Int) (hm : 1 ≤ m) :
    (mkAllocator t m = none ↔ t.fdiv m ≤ 0)
    ∧ (∀ S n : Nat, 1 ≤ S →
        mkAllocator ((S * 2 ^ n : Nat) : Int) ((S : Nat) : Int)
          = some (initAllocator S n)) := by
  constructor
  · unfold mkAllocator
    by_cases hc : 1 ≤ m ∧ 1 ≤ t.fdiv m
    · rw [if_pos hc]
      constructor
      · intro hcon
        exact Option.noConfusion hcon
      · intro hle
        exact absurd hc.2 (by omega)
    · rw [if_neg hc]
      constructor
      · intro _
        omega
      · intro _
        rfl
  · intro S n hS
    exact mkAllocator_pow S n hS

theorem claimC4_amended_witness :
    (mkAllocator 96 64 = none ↔ (96 : Int).fdiv 64 ≤ 0)
    ∧ mkAllocator ((64 * 2 ^ 0 : Nat) : Int) ((64 : Nat) : Int)
        = some (initAllocator 64 0) := by
  have h := claimC4_amended 96 64 (by norm_num)
  exact ⟨h.1, h.2 64 0 (by norm_num)⟩

/-- C4 counterexample: the pair `(total, min) = (96, 64)` is accepted by the
constructor — it produces an allocator with `total_size = 96`,
`min_size = 64` and a single level — although `96` is not expressible as
`64 · 2^n`, so no `InvalidConfiguration` rejection happens. -/
theorem claimC4_counterexample :
    Option.map (fun x => (x.total_size, x.min_size, x.levels)) (mkAllocator 96 64)
      = some (96, 64, 1) := by
  decide

/-- C5: the deallocation coalescing loop.  For every address present in the
allocated map, `deallocate` removes the entry and reaches, from
`(addr, level-of-size, free sets)` by zero or more spec §4.1 coalescing
steps (buddy = `cur XOR (S · 2^level)` free at the current level below the
top: remove it, continue from the minimum of the two one level up), a state
where the loop's stop condition holds, and inserts the final address into
the free set at the final level. -/
theorem claimC5 (a : Allocator) (addr size : Nat)
    (h : lookupKey addr a.allocated_blocks = some size) :
    ∃ st : Nat × Nat × (Nat → Finset Nat),
      Relation.ReflTransGen (SpecCoalesceStep a.min_size a.levels)
          (addr, getLevel a (size : Int), a.free_blocks) st
      ∧ SpecCoalesceStopped a.min_size a.levels st
      ∧ deallocate a addr = (true,
          { a with
            allocated_blocks := eraseKey addr a.allocated_blocks
            free_blocks := Function.update st.2.2 st.2.1
              (insert st.1 (st.2.2 st.2.1)) }) := by
  obtain ⟨hrtg, hstop⟩ := coalesce_rtg a.min_size a.levels a.levels addr
    (getLevel a (size : Int)) a.free_blocks (by omega)
  exact ⟨coalesce a.min_size a.levels a.levels addr (getLevel a (size : Int))
      a.free_blocks,
    hrtg, hstop, deallocate_some_spec h⟩

theorem claimC5_witness :
    ∃ st : Nat × Nat × (Nat → Finset Nat),
      Relation.ReflTransGen
          (SpecCoalesceStep (allocate (initAllocator 1 1) 1).2.min_size
            (allocate (initAllocator 1 1) 1).2.levels)
          (0, getLevel (allocate (initAllocator 1 1) 1).2 ((1 : Nat) : Int),
            (allocate (initAllocator 1 1) 1).2.free_blocks) st
      ∧ SpecCoalesceStopped (allocate (initAllocator 1 1) 1).2.min_size
          (allocate (initAllocator 1 1) 1).2.levels st
      ∧ deallocate (allocate (initAllocator 1 1) 1).2 0 = (true,
          { (allocate (initAllocator 1 1) 1).2 with
            allocated_blocks :=
              eraseKey 0 (allocate (initAllocator 1 1) 1).2.allocated_blocks
            free_blocks := Function.update st.2.2 st.2.1
              (insert st.1 (st.2.2 st.2.1)) }) :=
  claimC5 (allocate (initAllocator 1 1) 1).2 0 1 (by decide)

/-- C6: error atomicity.  If every free set from the target level up is
empty, `allocate` returns `none` (the code's `OutOfMemory` outcome) and the
state is unchanged; if the address is not a key of the allocated map,
`deallocate` returns `false` (the code's `InvalidAddress` outcome) and the
state is unchanged.  The unchanged state is the whole record, so the
allocator remains usable. -/
theorem claimC6 (a : Allocator) (R : Int) (addr : Nat)
    (h1 : ∀ l < a.levels, getLevel a R ≤ l → a.free_blocks l = ∅)
    (h2 : lookupKey addr a.allocated_blocks = none) :
    allocate a R = (none, a) ∧ deallocate a addr = (false, a) :=
  ⟨allocate_none_state ((allocate_fst_none_iff a R).mpr h1),
    deallocate_not_found h2⟩

theorem claimC6_witness :
    allocate (allocate (initAllocator 1 0) 1).2 1
        = (none, (allocate (initAllocator 1 0) 1).2)
    ∧ deallocate (allocate (initAllocator 1 0) 1).2 5
        = (false, (allocate (initAllocator 1 0) 1).2) :=
  claimC6 (allocate (initAllocator 1 0) 1).2 1 5 (by decide) (by decide)

/-- C7: alignment.  After any sequence of operations on a validly
constructed allocator, every free-set address at level `l` is a multiple of
its block size `S · 2^l`; every allocated entry's address is a multiple of
its recorded size and of `S`; and every address `allocate` returns is a
multiple of the requested level's block size and is recorded with exactly
that size. -/
theorem claimC7 (S n : Nat) (a₀ : Allocator) (ops : List Op) (hS : 1 ≤ S)
    (hmk : mkAllocator ((S * 2 ^ n : Nat) : Int) ((S : Nat) : Int) = some a₀) :
    (∀ l < (run a₀ ops).levels, ∀ ad ∈ (run a₀ ops).free_blocks l, (S * 2 ^ l) ∣ ad)
    ∧ (∀ p ∈ (run a₀ ops).allocated_blocks, p.2 ∣ p.1 ∧ S ∣ p.1)
    ∧ (∀ (R : Int) (addr : Nat) (a₁ : Allocator),
        allocate (run a₀ ops) R = (some addr, a₁) →
          (S * 2 ^ getLevel (run a₀ ops) R) ∣ addr
          ∧ lookupKey addr a₁.allocated_blocks
              = some (S * 2 ^ getLevel (run a₀ ops) R)) := by
  rw [mkAllocator_pow S n hS] at hmk
  injection hmk with hmk
  subst hmk
  obtain ⟨hInv, hTot, hMin, hLev⟩ := run_inv (inv_initAllocator S n hS) ops
  have hM2 : (run (initAllocator S n) ops).min_size = S := hMin
  refine ⟨?_, ?_, ?_⟩
  · intro l hl ad had
    have hd := (hInv.2.1 l hl ad had).1
    rw [hM2] at hd
    exact hd
  · intro p hp
    obtain ⟨k, hk, hszq, hdvd, _⟩ := hInv.2.2.1 p hp
    refine ⟨hdvd, ?_⟩
    have hSd : S ∣ p.2 := ⟨2 ^ k, by rw [hszq, hM2]⟩
    exact dvd_trans hSd hdvd
  · intro R addr a₁ hres
    obtain ⟨lvl, hlev, hlvl, hmem, hstate⟩ := allocate_some_spec hres
    have hal : ((run (initAllocator S n) ops).min_size * 2 ^ lvl) ∣ addr :=
      (hInv.2.1 lvl hlvl addr hmem).1
    constructor
    · have hdd : ((run (initAllocator S n) ops).min_size
            * 2 ^ getLevel (run (initAllocator S n) ops) R)
          ∣ ((run (initAllocator S n) ops).min_size * 2 ^ lvl) :=
        mul_dvd_mul_left _ (pow_dvd_pow 2 hlev)
      have hfin := dvd_trans hdd hal
      rw [hM2] at hfin
      exact hfin
    · rw [hstate]
      show lookupKey addr
          (insertKey addr
            ((run (initAllocator S n) ops).min_size
              * 2 ^ getLevel (run (initAllocator S n) ops) R)
            (run (initAllocator S n) ops).allocated_blocks)
        = some (S * 2 ^ getLevel (run (initAllocator S n) ops) R)
      rw [hM2, lookupKey_insertKey_self]

theorem claimC7_witness :
    (∀ l < (run (initAllocator 1 1) []).levels,
      ∀ ad ∈ (run (initAllocator 1 1) []).free_blocks l, (1 * 2 ^ l) ∣ ad)
    ∧ (∀ p ∈ (run (initAllocator 1 1) []).allocated_blocks, p.2 ∣ p.1 ∧ 1 ∣ p.1)
    ∧ (∀ (R : Int) (addr : Nat) (a₁ : Allocator),
        allocate (run (initAllocator 1 1) []) R = (some addr, a₁) →
          (1 * 2 ^ getLevel (run (initAllocator 1 1) []) R) ∣ addr
          ∧ lookupKey addr a₁.allocated_blocks
              = some (1 * 2 ^ getLevel (run (initAllocator 1 1) []) R)) :=
  claimC7 1 1 (initAllocator 1 1) [] (by norm_num) (mkAllocator_pow 1 1 (by norm_num))

/-- C8 (amended): `memory_map` is a pure function of the state; on any
reachable state of a validly constructed allocator its entries cover each
point of `[0, T)` exactly once (no gaps, no overlaps); its allocated
segment is in strictly ascending address order and each per-level free
segment is in ascending address order.  The list as a whole is, however,
NOT globally in ascending address order.
(The claim as stated is refuted by `claimC8_counterexample`: the allocated
blocks are printed first, so a free block at a lower address appears after
them.) -/
theorem claimC8_amended (S n : Nat) (a₀ : Allocator) (ops : List Op) (hS : 1 ≤ S)
    (hmk : mkAllocator ((S * 2 ^ n : Nat) : Int) ((S : Nat) : Int) = some a₀) :
    (∀ x < S * 2 ^ n,
      (memory_map (run a₀ ops)).countP
        (fun e => decide (e.2.1 ≤ x ∧ x < e.2.1 + e.2.2)) = 1)
    ∧ List.Pairwise (fun q₁ q₂ : Nat × Nat => q₁.1 < q₂.1)
        (run a₀ ops).allocated_blocks
    ∧ (∀ l < (run a₀ ops).levels,
        List.Sorted (fun x y => x ≤ y) (sortAsc ((run a₀ ops).free_blocks l))) := by
  rw [mkAllocator_pow S n hS] at hmk
  injection hmk with hmk
  subst hmk
  obtain ⟨hInv, hTot, hMin, hLev⟩ := run_inv (inv_initAllocator S n hS) ops
  have hT2 : (run (initAllocator S n) ops).total_size = S * 2 ^ n := hTot
  refine ⟨?_, hInv.2.2.2.1, ?_⟩
  · intro x hx
    exact memory_map_cover hInv (by rw [hT2]; exact hx)
  · intro l _
    exact sortAsc_sorted _

theorem claimC8_amended_witness :
    (∀ x < 1 * 2 ^ 0,
      (memory_map (run (initAllocator 1 0) [])).countP
        (fun e => decide (e.2.1 ≤ x ∧ x < e.2.1 + e.2.2)) = 1)
    ∧ List.Pairwise (fun q₁ q₂ : Nat × Nat => q₁.1 < q₂.1)
        (run (initAllocator 1 0) []).allocated_blocks
    ∧ (∀ l < (run (initAllocator 1 0) []).levels,
        List.Sorted (fun x y => x ≤ y) (sortAsc ((run (initAllocator 1 0) []).free_blocks l))) :=
  claimC8_amended 1 0 (initAllocator 1 0) [] (by norm_num)
    (mkAllocator_pow 1 0 (by norm_num))

/-- C8 counterexample: a reachable state (allocator of 256 with minimum 64,
after allocating twice and freeing the first block) whose `memory_map`
lists the allocated block at `64` before the free block at `0`: the output
is not in ascending address order. -/
theorem claimC8_counterexample :
    memory_map (run (initAllocator 64 2) [Op.alloc 64, Op.alloc 64, Op.free 0])
      = [(BlockState.Allocated, 64, 64), (BlockState.Free, 0, 64),
          (BlockState.Free, 128, 128)]
    ∧ ¬ List.Sorted (fun e₁ e₂ : BlockState × Nat × Nat => e₁.2.1 ≤ e₂.2.1)
        (memory_map (run (initAllocator 64 2) [Op.alloc 64, Op.alloc 64, Op.free 0])) := by
  decide

/-- C9: the coalescing scenario.  On the fresh `1024/128` allocator
(4 levels), `allocate 128`, `allocate 128`, `allocate 256` return addresses
`0`, `128`, `256`; after `deallocate 0` and `deallocate 128` the free sets
hold exactly the coalesced 256-block at address `0` (level 1) and the
512-block at address `512` (level 2), and the allocated map holds exactly
`(256, 256)`. -/
theorem claimC9 :
    mkAllocator ((128 * 2 ^ 3 : Nat) : Int) ((128 : Nat) : Int)
      = some (initAllocator 128 3)
    ∧ (allocate (initAllocator 128 3) 128).1 = some 0
    ∧ (allocate (run (initAllocator 128 3) [Op.alloc 128]) 128).1 = some 128
    ∧ (allocate (run (initAllocator 128 3) [Op.alloc 128, Op.alloc 128]) 256).1
        = some 256
    ∧ (deallocate (run (initAllocator 128 3)
        [Op.alloc 128, Op.alloc 128, Op.alloc 256]) 0).1 = true
    ∧ (deallocate (run (initAllocator 128 3)
        [Op.alloc 128, Op.alloc 128, Op.alloc 256, Op.free 0]) 128).1 = true
    ∧ (run (initAllocator 128 3)
        [Op.alloc 128, Op.alloc 128, Op.alloc 256, Op.free 0, Op.free 128]).free_blocks 0
        = ∅
    ∧ (run (initAllocator 128 3)
        [Op.alloc 128, Op.alloc 128, Op.alloc 256, Op.free 0, Op.free 128]).free_blocks 1
        = {0}
    ∧ (run (initAllocator 128 3)
        [Op.alloc 128, Op.alloc 128, Op.alloc 256, Op.free 0, Op.free 128]).free_blocks 2
        = {512}
    ∧ (run (initAllocator 128 3)
        [Op.alloc 128, Op.alloc 128, Op.alloc 256, Op.free 0, Op.free 128]).free_blocks 3
        = ∅
    ∧ (run (initAllocator 128 3)
        [Op.alloc 128, Op.alloc 128, Op.alloc 256, Op.free 0, Op.free 128]).allocated_blocks
        = [(256, 256)] :=
  ⟨mkAllocator_pow 128 3 (by norm_num), by decide, by decide, by decide, by decide,
    by decide, by decide, by decide, by decide, by decide, by decide⟩

/-- C10: non-positive and small requests are clamped.  Every request
`≤ min_block_size` — in particular every non-positive one — is given level
`0`; consequently, when any free block exists at any level, `allocate R`
with `R ≤ 0` succeeds and records a block of exactly the minimum size. -/
theorem claimC10 (a : Allocator) (R : Int) (hS : 1 ≤ a.min_size) (hR : R ≤ 0)
    (hfree : ∃ l, l < a.levels ∧ (a.free_blocks l).Nonempty) :
    (∀ Q : Int, Q ≤ (a.min_size : Int) → getLevel a Q = 0)
    ∧ ∃ (addr : Nat) (a₁ : Allocator), allocate a R = (some addr, a₁)
        ∧ lookupKey addr a₁.allocated_blocks = some a.min_size := by
  have hmin0 : getLevel a ((a.min_size : Nat) : Int) = 0 := by
    have h := getLevel_pow a 0 hS
    have he : a.min_size * 2 ^ 0 = a.min_size := by ring
    rw [he] at h
    exact h
  have hQ : ∀ Q : Int, Q ≤ (a.min_size : Int) → getLevel a Q = 0 := by
    intro Q hQle
    rw [getLevel_le_min a Q hQle]
    exact hmin0
  refine ⟨hQ, ?_⟩
  have hlev0 : getLevel a R = 0 := getLevel_nonpos a R hR
  rcases hres : allocate a R with ⟨r, a₁⟩
  rcases r with _ | addr
  · exfalso
    have hnone : (allocate a R).1 = none := by rw [hres]
    have hall := (allocate_fst_none_iff a R).mp hnone
    obtain ⟨l, hl, hne⟩ := hfree
    rw [hall l hl (by omega)] at hne
    exact Finset.not_nonempty_empty hne
  · obtain ⟨lvl, hlev, hlvl, hmem, hstate⟩ := allocate_some_spec hres
    refine ⟨addr, a₁, rfl, ?_⟩
    rw [hstate]
    show lookupKey addr
        (insertKey addr (a.min_size * 2 ^ getLevel a R) a.allocated_blocks)
      = some a.min_size
    rw [hlev0, pow_zero, mul_one, lookupKey_insertKey_self]

theorem claimC10_witness :
    (∀ Q : Int, Q ≤ ((initAllocator 1 1).min_size : Int)
      → getLevel (initAllocator 1 1) Q = 0)
    ∧ ∃ (addr : Nat) (a₁ : Allocator), allocate (initAllocator 1 1) (-5) = (some addr, a₁)
        ∧ lookupKey addr a₁.allocated_blocks = some (initAllocator 1 1).min_size :=
  claimC10 (initAllocator 1 1) (-5) (by decide) (by decide) ⟨1, by decide, by decide⟩

end BuddySystem
